import Mathlib

/-!
Verification of the Rk-matrix algebra core of hmat-oss (`src/rk_matrix.cpp`)
and its supporting tree abstraction (`src/tree.hpp`).

The scalar panels (`ScalarArray<T>`) are embedded as `Mat R`: a pair of
dimensions together with an entry function `ℕ → ℕ → R`, over a commutative
star-ring `R` (the library instantiates `T ∈ {f32, f64, c32, c64}`; the real
instantiations have trivial `star`).  Matrix values are compared with `MatEq`,
pointwise equality on the declared index rectangle.  External BLAS/LAPACK
kernels (QR, SVD, modified Gram-Schmidt, `truncatedSvd`) are collaborators
outside this translation unit; they are modelled from the spec as parameters
(`Kernels R`).  Environment toggles are boolean parameters.
-/

namespace HmatOss

/-- A scalar panel: `rows × cols` entries of `R`, plus the `ortho` flag carried
by each `ScalarArray`.  Entries are a total function; only the rectangle
`[0, rows) × [0, cols)` is meaningful and compared. -/
structure Mat (R : Type) where
  rows : Nat
  cols : Nat
  entry : Nat → Nat → R
  ortho : Bool := false

/-- A contiguous index range, as in `IndexSet` (offset and size). -/
structure IndexSet where
  offset : Nat
  size : Nat
deriving DecidableEq

/-- Modelled from the spec: `IndexSet.isSubset` — the range is contained in the
other one. -/
def IndexSet.isSubset (s t : IndexSet) : Prop :=
  t.offset ≤ s.offset ∧ s.offset + s.size ≤ t.offset + t.size

instance (s t : IndexSet) : Decidable (s.isSubset t) := by
  unfold IndexSet.isSubset; infer_instance

/-- Modelled from the spec: `IndexSet.intersects` — the two ranges overlap. -/
def IndexSet.intersects (s t : IndexSet) : Bool :=
  decide (s.offset < t.offset + t.size ∧ t.offset < s.offset + s.size)

variable {R : Type}

/-- Pointwise equality of panels on the declared rectangle. -/
def MatEq [CommRing R] (A B : Mat R) : Prop :=
  A.rows = B.rows ∧ A.cols = B.cols ∧
    ∀ i < A.rows, ∀ j < A.cols, A.entry i j = B.entry i j

instance [CommRing R] [DecidableEq R] (A B : Mat R) : Decidable (MatEq A B) := by
  unfold MatEq; infer_instance

namespace Mat

/-- A fresh `ScalarArray(rows, cols)`: zero initialised, not orthogonal. -/
def zeros [CommRing R] (m n : Nat) : Mat R :=
  ⟨m, n, fun _ _ => 0, false⟩

/-- Entry of `op(A)` for a BLAS transposition character:
`'N'` plain, `'T'` transpose, anything else (i.e. `'C'`) conjugate-transpose. -/
def opE [CommRing R] [StarRing R] (t : Char) (A : Mat R) (i j : Nat) : R :=
  if t = 'N' then A.entry i j else if t = 'T' then A.entry j i else star (A.entry j i)

/-- Column count of `op(A)`. -/
def opCols (t : Char) (A : Mat R) : Nat :=
  if t = 'N' then A.cols else A.rows

/-- Row count of `op(A)`. -/
def opRows (t : Char) (A : Mat R) : Nat :=
  if t = 'N' then A.rows else A.cols

/-- `C.gemm(transA, transB, α, A, B, β)`: `C ← α·op(A)·op(B) + β·C`.
The destination keeps its dimensions; the inner sum runs over the column
count of `op(A)`, as the kernel contract requires. -/
def gemm [CommRing R] [StarRing R] (C : Mat R) (ta tb : Char) (α : R) (A B : Mat R)
    (β : R) : Mat R :=
  ⟨C.rows, C.cols,
   fun i j => β * C.entry i j +
     α * ∑ c ∈ Finset.range (opCols ta A), opE ta A i c * opE tb B c j,
   false⟩

/-- `ScalarArray::scale(α)` — multiply every entry by `α`. -/
def scale [CommRing R] (A : Mat R) (α : R) : Mat R :=
  ⟨A.rows, A.cols, fun i j => α * A.entry i j, A.ortho⟩

/-- `ScalarArray::copy()` — a deep copy has the same value. -/
def copy (A : Mat R) : Mat R := A

/-- `ScalarArray::conjugate()` — entrywise `star`. -/
def conjugate [CommRing R] [StarRing R] (A : Mat R) : Mat R :=
  ⟨A.rows, A.cols, fun i j => star (A.entry i j), A.ortho⟩

/-- `dst.copyMatrixAtOffset(src, ro, co)`: overwrite the sub-rectangle of `dst`
at offset `(ro, co)` with `src`, leaving the rest. -/
def copyAt (dst src : Mat R) (ro co : Nat) : Mat R :=
  ⟨dst.rows, dst.cols,
   fun i j =>
     if ro ≤ i ∧ i < ro + src.rows ∧ co ≤ j ∧ j < co + src.cols then
       src.entry (i - ro) (j - co)
     else dst.entry i j,
   false⟩

/-- `ScalarArray(const&, ro, nr, co, nc)` — a copy of a sub-block. -/
def subM (A : Mat R) (ro nr co nc : Nat) : Mat R :=
  ⟨nr, nc, fun i j => A.entry (ro + i) (co + j), false⟩

/-- Scaling a sub-block in place through a view (the
`ScalarArray<T> tmp(*resultA, ...); tmp.scale(α)` idiom). -/
def scaleBlock [CommRing R] (A : Mat R) (α : R) (ro nr co nc : Nat) : Mat R :=
  ⟨A.rows, A.cols,
   fun i j =>
     if ro ≤ i ∧ i < ro + nr ∧ co ≤ j ∧ j < co + nc then α * A.entry i j
     else A.entry i j,
   false⟩

/-- Axpy of `src` into the sub-block of `me` at offset `(ro, co)` through a
view (the `ScalarArray<T> sub(me->data, ...); sub.axpy(α, ...)` idiom). -/
def axpyAt [CommRing R] (me : Mat R) (α : R) (src : Mat R) (ro co : Nat) : Mat R :=
  ⟨me.rows, me.cols,
   fun i j =>
     if ro ≤ i ∧ i < ro + src.rows ∧ co ≤ j ∧ j < co + src.cols then
       me.entry i j + α * src.entry (i - ro) (j - co)
     else me.entry i j,
   false⟩

/-- `ScalarArray::multiplyWithDiag(σ)` — scale column `j` by `σ[j]`.
Singular values are `double`s in the source for every scalar type, hence the
rational vector and the `algebraMap` cast. -/
def multiplyWithDiag [CommRing R] [Algebra ℚ R] (A : Mat R) (σ : List ℚ) : Mat R :=
  ⟨A.rows, A.cols, fun i j => A.entry i j * algebraMap ℚ R (σ.getD j 0), false⟩

/-- `u->cols = newK` — the in-place column-count truncation used after SVD. -/
def setCols (A : Mat R) (k : Nat) : Mat R :=
  { A with cols := k }

def setOrtho (A : Mat R) (b : Bool) : Mat R := { A with ortho := b }

def getOrtho (A : Mat R) : Bool := A.ortho

/-- Specification-side matrix product (plain mathematical `A·B`). -/
def matmul [CommRing R] (A B : Mat R) : Mat R :=
  ⟨A.rows, B.cols, fun i j => ∑ t ∈ Finset.range A.cols, A.entry i t * B.entry t j, false⟩

/-- Specification-side transpose. -/
def transp (A : Mat R) : Mat R :=
  ⟨A.cols, A.rows, fun i j => A.entry j i, false⟩

/-- Specification-side conjugate transpose. -/
def ctransp [CommRing R] [StarRing R] (A : Mat R) : Mat R :=
  ⟨A.cols, A.rows, fun i j => star (A.entry j i), false⟩

/-- Specification-side `op ∈ {N, T, C}` applied to a dense value. -/
def opMat [CommRing R] [StarRing R] (t : Char) (A : Mat R) : Mat R :=
  if t = 'N' then A else if t = 'T' then A.transp else A.ctransp

/-- Specification-side sum. -/
def add [CommRing R] (A B : Mat R) : Mat R :=
  ⟨A.rows, A.cols, fun i j => A.entry i j + B.entry i j, false⟩

end Mat

/-- The process-wide `RkApproximationControl`: configured target rank (`0` =
automatic; nonnegative in every configuration) and recompression tolerance. -/
structure RkApproximationControl where
  k : Nat
  recompressionEpsilon : ℚ

/-- The scan of `RkApproximationControl::findK`: smallest index `i` with
`σ[i] ≤ thr`, or the length when none qualifies. -/
def firstBelow (thr : ℚ) : List ℚ → Nat
  | [] => 0
  | x :: xs => if x ≤ thr then 0 else firstBelow thr xs + 1

/-- `RkApproximationControl::findK(σ, ε)`.  `l2crit` models the
`HMAT_L2_CRITERION` environment toggle. -/
def findK (ctl : RkApproximationControl) (l2crit : Bool) (sigma : List ℚ)
    (epsilon : ℚ) : Nat :=
  if ctl.k ≠ 0 then min ctl.k sigma.length
  else
    let thresholdEigenvalue : ℚ := if l2crit then sigma.headD 0 else sigma.sum
    firstBelow (thresholdEigenvalue * epsilon) sigma

/-! ## The Rk block and its elementary operations (`RkMatrix<T>`) -/

/-- `RkMatrix<T>`: non-owning row/column index sets, the two optional factor
panels, and the compression-method tag.  `CompressionMethod` values are
modelled as naturals (the source combines them with `std::min` on the enum). -/
structure RkM (R : Type) where
  rows : IndexSet
  cols : IndexSet
  a : Option (Mat R)
  b : Option (Mat R)
  method : Nat

namespace RkM

/-- `rank()`: the column count of `a` when present, else `0`. -/
def rank (r : RkM R) : Nat :=
  match r.a with
  | some A => A.cols
  | none => 0

/-- `evalArray` on a fresh `rows.size × cols.size` array: `A·Bᵀ` via
`gemm('N','T')` when the rank is nonzero, zeros otherwise.  (A nonzero rank
with an absent `b` dereferences null in the source; the match falls back to
zeros there.) -/
def evalM [CommRing R] [StarRing R] (r : RkM R) : Mat R :=
  if r.rank ≠ 0 then
    match r.a, r.b with
    | some A, some B => (Mat.zeros r.rows.size r.cols.size).gemm 'N' 'T' 1 A B 0
    | _, _ => Mat.zeros r.rows.size r.cols.size
  else Mat.zeros r.rows.size r.cols.size

/-- `RkMatrix::scale(α)` — only panel `a` is scaled, when present. -/
def scale [CommRing R] (r : RkM R) (α : R) : RkM R :=
  match r.a with
  | some A => { r with a := some (A.scale α) }
  | none => r

/-- `RkMatrix::transpose()` — swap `(a, b)` and `(rows, cols)`. -/
def transposeRk (r : RkM R) : RkM R :=
  { r with a := r.b, b := r.a, rows := r.cols, cols := r.rows }

/-- `RkMatrix::clear()` — free and null both panels. -/
def clear (r : RkM R) : RkM R :=
  { r with a := none, b := none }

/-- `RkMatrix::swap(other)` — exchange `a`, `b` and `method` (index sets are
asserted equal).  Returns the pair of updated blocks `(this, other)`. -/
def swapRk (r o : RkM R) : RkM R × RkM R :=
  ({ r with a := o.a, b := o.b, method := o.method },
   { o with a := r.a, b := r.b, method := r.method })

/-- `RkMatrix::gemv(trans, α, x, β, y)`.  Returns the updated `y` together
with the state of the (const) Rk block after the call. -/
def gemv [CommRing R] [StarRing R] [DecidableEq R] (r : RkM R) (trans : Char) (α : R) (x : Mat R)
    (β : R) (y : Mat R) : Mat R × RkM R :=
  if r.rank = 0 then
    (if β ≠ 1 then y.scale β else y, r)
  else
    match r.a, r.b with
    | some A, some B =>
      if trans = 'N' then
        let z := (Mat.zeros B.cols x.cols).gemm 'T' 'N' 1 B x 0
        (y.gemm 'N' 'N' α A z β, r)
      else if trans = 'T' then
        let z := (Mat.zeros A.cols x.cols).gemm 'T' 'N' 1 A x 0
        (y.gemm 'N' 'N' α B z β, r)
      else
        let z := (Mat.zeros A.cols x.cols).gemm 'C' 'N' 1 A x 0
        let newB := B.copy.conjugate
        (y.gemm 'N' 'N' α newB z β, r)
    | _, _ => (y, r)

/-- The structural invariant of an Rk block: both panels absent (empty,
rank 0), or both present with a common width `k ≥ 1` and row counts matching
the index sets. -/
def Inv (r : RkM R) : Prop :=
  (r.a = none ∧ r.b = none) ∨
    (∃ A B, r.a = some A ∧ r.b = some B ∧ A.cols = B.cols ∧ 1 ≤ A.cols ∧
      A.rows = r.rows.size ∧ B.rows = r.cols.size)

end RkM

/-! ## The tree abstraction (`tree.hpp`)

`Tree<N>` nodes hold mutable `father` pointers, so the graph is modelled as a
node store indexed by position; `none` entries in a `children` vector are the
null child pointers. -/

/-- One `Tree<N>` node: its depth, children vector (store indices, `none` for
null) and father pointer. -/
structure TreeNode where
  depth : Nat
  children : List (Option Nat)
  father : Option Nat
deriving DecidableEq

/-- The node store: node identities are list positions. -/
def TreeStore := List TreeNode

/-- Read a node (nodes are only read at valid indices). -/
def getNode (s : TreeStore) (i : Nat) : TreeNode :=
  s.getD i ⟨0, [], none⟩

/-- Update the node at a valid index. -/
def updAt (s : TreeStore) (i : Nat) (f : TreeNode → TreeNode) : TreeStore :=
  match s.get? i with
  | some v => s.set i (f v)
  | none => s

/-- `Tree<N>::insertChild(index, child)`, line by line: grow the children
vector to `index+1` with null entries when too short, set the child's father,
store the child pointer, then set the child's depth from the father's current
depth. -/
def insertChild (s : TreeStore) (t idx c : Nat) : TreeStore :=
  let s1 := updAt s t (fun n =>
    if n.children.length ≤ idx then
      { n with children := n.children ++ List.replicate (idx + 1 - n.children.length) none }
    else n)
  let s2 := updAt s1 c (fun n => { n with father := some t })
  let s3 := updAt s2 t (fun n => { n with children := n.children.set idx (some c) })
  updAt s3 c (fun n => { n with depth := (getNode s3 t).depth + 1 })

/-- `Tree<N>::getChild(index)` — the stored child pointer. -/
def getChild (s : TreeStore) (t idx : Nat) : Option Nat :=
  (getNode s t).children.getD idx none

/-- `Tree<N>::nbChild()`. -/
def nbChild (s : TreeStore) (t : Nat) : Nat :=
  (getNode s t).children.length

/-! ## External kernels

The BLAS/LAPACK layer (`lapack_operations`, `ScalarArray` methods) is an
external collaborator of `rk_matrix.cpp`.  Modelled from the spec: QR
factorisation with an initial pivot, apply-Q, SVD (singular values are
`double`s, here rationals), modified Gram-Schmidt with tolerance and pivot,
`truncatedSvd` dense compression, and the real square root used on singular
values. -/
structure Kernels (R : Type) where
  /-- `qrDecomposition`: panel, initial pivot ↦ (panel in Householder/Q form, R factor). -/
  qr : Mat R → Nat → Mat R × Mat R
  /-- `productQ('L','N')`: apply the Q of a factorised panel to the target. -/
  productQ : Mat R → Mat R → Mat R
  /-- `svdDecomposition`: matrix ↦ (U, σ, V). -/
  svd : Mat R → Mat R × List ℚ × Mat R
  /-- `modifiedGramSchmidt`: panel, ε, initial pivot ↦ (orthogonalised panel, R factor, retained rank). -/
  mgs : Mat R → ℚ → Nat → Mat R × Mat R × Nat
  /-- `truncatedSvd`: dense block, ε ↦ (factor panels of the compressed Rk, or none when empty; method tag). -/
  tsvd : Mat R → ℚ → Option (Mat R × Mat R) × Nat
  /-- real `sqrt`, applied to singular values. -/
  rsqrt : ℚ → ℚ

/-- Conjugation selector used to state transpose/conjugate case analyses. -/
def csel [CommRing R] [StarRing R] (flag : Bool) (x : R) : R :=
  if flag then star x else x

/-- The mid matrix `tmp = op(b1)ᵀ·op(a2)` of `multiplyRkRk`, with the
conjugation pattern of the source's four-way branch. -/
def rkrkMid [CommRing R] [StarRing R] (trans1 trans2 : Char) (k1 k2 : Nat)
    (b1 a2 : Mat R) : Mat R :=
  let tmp0 : Mat R := Mat.zeros k1 k2
  if trans1 = 'C' ∧ trans2 = 'C' then (tmp0.gemm 'T' 'N' 1 b1 a2 0).conjugate
  else if trans1 = 'C' then tmp0.gemm 'C' 'N' 1 b1 a2 0
  else if trans2 = 'C' then (tmp0.gemm 'C' 'N' 1 b1 a2 0).conjugate
  else tmp0.gemm 'T' 'N' 1 b1 a2 0

/-- The OLD (default) branch of `multiplyRkRk`: pick the side of smaller rank. -/
def rkrkOldPanels [CommRing R] [StarRing R] (trans1 trans2 : Char) (k1 k2 : Nat)
    (a1 b2 tmp : Mat R) : Mat R × Mat R :=
  if k1 < k2 then
    (if trans1 = 'C' then a1.copy.conjugate else a1.copy,
     if trans2 = 'C' then ((Mat.zeros b2.rows k1).gemm 'N' 'C' 1 b2 tmp 0).conjugate
     else (Mat.zeros b2.rows k1).gemm 'N' 'T' 1 b2 tmp 0)
  else
    (let tmp2 := if trans1 = 'C' then tmp.conjugate else tmp
     let newA0 := (Mat.zeros a1.rows k2).gemm 'N' 'N' 1 a1 tmp2 0
     if trans1 = 'C' then newA0.conjugate else newA0,
     if trans2 = 'C' then b2.copy.conjugate else b2.copy)

/-- The NEW (`HMAT_NEW_RKRK`) branch of `multiplyRkRk`: SVD of the mid matrix,
`findK` at the recompression tolerance, `√Σ` scaling applied to both sides. -/
def rkrkNewPanels [CommRing R] [StarRing R] [Algebra ℚ R] (ker : Kernels R)
    (ctl : RkApproximationControl) (l2 : Bool) (trans1 trans2 : Char)
    (a1 b2 tmp : Mat R) : Option (Mat R × Mat R) :=
  let usv := ker.svd tmp
  let newK := findK ctl l2 usv.2.1 ctl.recompressionEpsilon
  if 0 < newK then
    let sr2 := (usv.2.1.take newK).map ker.rsqrt
    let ur1 := (usv.1.setCols newK).multiplyWithDiag sr2
    let vr1 := (usv.2.2.setCols newK).multiplyWithDiag sr2
    let ur2 := if trans1 = 'C' then ur1.conjugate else ur1
    let newA0 := (Mat.zeros a1.rows newK).gemm 'N' 'N' 1 a1 ur2 0
    let newA := if trans1 = 'C' then newA0.conjugate else newA0
    let vr2 := if trans2 = 'C' then vr1.conjugate else vr1
    let newB0 := (Mat.zeros b2.rows newK).gemm 'N' 'N' 1 b2 vr2 0
    let newB := if trans2 = 'C' then newB0.conjugate else newB0
    some (newA, newB)
  else none

/-- `RkMatrix<T>::multiplyRkRk(trans1, trans2, r1, r2)`.  `newRKRK` models the
`HMAT_NEW_RKRK` environment toggle.  A null panel dereference (an empty
operand on a path that reads its panels) is `none`. -/
def multiplyRkRk [CommRing R] [StarRing R] [Algebra ℚ R] (ker : Kernels R)
    (ctl : RkApproximationControl) (l2 newRKRK : Bool)
    (trans1 trans2 : Char) (r1 r2 : RkM R) : Option (RkM R) :=
  match (if trans1 = 'N' then r1.a else r1.b), (if trans1 = 'N' then r1.b else r1.a),
        (if trans2 = 'N' then r2.a else r2.b), (if trans2 = 'N' then r2.b else r2.a) with
  | some a1, some b1, some a2, some b2 =>
    let tmp := rkrkMid trans1 trans2 r1.rank r2.rank b1 a2
    let panels : Option (Mat R × Mat R) :=
      if newRKRK then rkrkNewPanels ker ctl l2 trans1 trans2 a1 b2 tmp
      else some (rkrkOldPanels trans1 trans2 r1.rank r2.rank a1 b2 tmp)
    some ⟨(if trans1 = 'N' then r1.rows else r1.cols),
          (if trans2 = 'N' then r2.cols else r2.rows),
          panels.map Prod.fst, panels.map Prod.snd,
          min r1.method r2.method⟩
  | _, _, _, _ => none

/-- Concrete 2-by-1 panels and a concrete Rk block over the rationals, used as
inputs of witness theorems. -/
def wA : Mat ℚ := ⟨2, 1, fun i _ => if i = 0 then 1 else 2, false⟩

def wB : Mat ℚ := ⟨2, 1, fun i _ => if i = 0 then 3 else 4, false⟩

def wRk : RkM ℚ := ⟨⟨0, 2⟩, ⟨0, 2⟩, some wA, some wB, 0⟩

def wX : Mat ℚ := ⟨2, 1, fun i _ => if i = 0 then 1 else 7, false⟩

def wY : Mat ℚ := ⟨2, 1, fun _ _ => 5, false⟩

/-! ## Rank truncation (`truncate`, `mGSTruncate`) -/

/-- `RkMatrix<T>::mGSTruncate(ε, initialPivotA, initialPivotB)`: modified
Gram-Schmidt on both panels (either may already drop the rank to 0), SVD of
the small `R_A·R_Bᵀ`, `findK` rank selection, `√Σ` scaling, and plain `gemm`
reconstruction. -/
def RkM.mgsTruncate [CommRing R] [StarRing R] [Algebra ℚ R] (ker : Kernels R)
    (ctl : RkApproximationControl) (l2 : Bool) (r : RkM R) (epsilon : ℚ)
    (initialPivotA initialPivotB : Nat) : RkM R :=
  if r.rank = 0 then r
  else
    match r.a, r.b with
    | some A, some B =>
      let mgsA := ker.mgs A epsilon initialPivotA
      if mgsA.2.2 = 0 then r.clear
      else
        let mgsB := ker.mgs B epsilon initialPivotB
        if mgsB.2.2 = 0 then r.clear
        else
          let matR := (Mat.zeros mgsA.2.2 mgsB.2.2).gemm 'N' 'T' 1 mgsA.2.1 mgsB.2.1 0
          let usv := ker.svd matR
          let newK := findK ctl l2 usv.2.1 epsilon
          if newK = 0 then r.clear
          else
            let sr2 := (usv.2.1.take newK).map ker.rsqrt
            let ur := (usv.1.setCols newK).multiplyWithDiag sr2
            let vr := (usv.2.2.setCols newK).multiplyWithDiag sr2
            let newA := ((Mat.zeros mgsA.1.rows newK).gemm 'N' 'N' 1 mgsA.1 ur 0).setOrtho ur.ortho
            let newB := ((Mat.zeros mgsB.1.rows newK).gemm 'N' 'N' 1 mgsB.1 vr 0).setOrtho vr.ortho
            { r with a := some newA, b := some newB }
    | _, _ => r

/-- `RkMatrix<T>::truncate(ε, initialPivotA, initialPivotB)`: pivots are
cleared unless `HMAT_TRUNC_INITPIV` (`useInitPiv`) is set; rank above
`min(m, n)` falls back to a dense `truncatedSvd` at the `ε` argument and the
result is swapped in; `HMAT_RECOMPRESS=MGS` (`recompMGS`) dispatches to
`mGSTruncate`; otherwise QR of both panels, SVD of `R_A·R_Bᵀ`, `findK`, `√Σ`
scaling, and apply-Q reconstruction (split in two when an initial pivot is
present). -/
def RkM.truncate [CommRing R] [StarRing R] [Algebra ℚ R] (ker : Kernels R)
    (ctl : RkApproximationControl) (l2 useInitPiv recompMGS : Bool) (r : RkM R)
    (epsilon : ℚ) (initialPivotA initialPivotB : Nat) : RkM R :=
  let ipA := if useInitPiv then initialPivotA else 0
  let ipB := if useInitPiv then initialPivotB else 0
  if r.rank = 0 then r
  else if min r.rows.size r.cols.size < r.rank then
    let tsv := ker.tsvd r.evalM epsilon
    { r with a := tsv.1.map Prod.fst, b := tsv.1.map Prod.snd, method := tsv.2 }
  else if recompMGS then r.mgsTruncate ker ctl l2 epsilon ipA ipB
  else
    match r.a, r.b with
    | some A, some B =>
      let qa := ker.qr A ipA
      let qb := ker.qr B ipB
      let rmat := (Mat.zeros r.rank r.rank).gemm 'N' 'T' 1 qa.2 qb.2 0
      let usv := ker.svd rmat
      let newK := findK ctl l2 usv.2.1 epsilon
      if newK = 0 then r.clear
      else
        let sr2 := (usv.2.1.take newK).map ker.rsqrt
        let u := (usv.1.setCols newK).multiplyWithDiag sr2
        let v := (usv.2.2.setCols newK).multiplyWithDiag sr2
        let newA :=
          if ipA ≠ 0 then
            let nA0 := ker.productQ (Mat.subM qa.1 0 qa.1.rows ipA (qa.1.cols - ipA))
              ((Mat.zeros r.rows.size newK).copyAt (Mat.subM u ipA (u.rows - ipA) 0 u.cols) 0 0)
            nA0.gemm 'N' 'N' 1 (Mat.subM qa.1 0 qa.1.rows 0 ipA) (Mat.subM u 0 ipA 0 u.cols) 1
          else ker.productQ qa.1 ((Mat.zeros r.rows.size newK).copyAt u 0 0)
        let newB :=
          if ipB ≠ 0 then
            let nB0 := ker.productQ (Mat.subM qb.1 0 qb.1.rows ipB (qb.1.cols - ipB))
              ((Mat.zeros r.cols.size newK).copyAt (Mat.subM v ipB (v.rows - ipB) 0 v.cols) 0 0)
            nB0.gemm 'N' 'N' 1 (Mat.subM qb.1 0 qb.1.rows 0 ipB) (Mat.subM v 0 ipB 0 v.cols) 1
          else ker.productQ qb.1 ((Mat.zeros r.cols.size newK).copyAt v 0 0)
        { r with a := some (newA.setOrtho u.ortho), b := some (newB.setOrtho v.ortho) }
    | _, _ => r

/-- Shape contracts of the external kernels, modelled from the spec: apply-Q
preserves the target shape, `truncatedSvd` returns matching panels of width
at least 1 over the dense block's dimensions (or an empty result), and
modified Gram-Schmidt keeps the panel's row count. -/
def KernelsWF [CommRing R] (ker : Kernels R) : Prop :=
  (∀ Qf X : Mat R, (ker.productQ Qf X).rows = X.rows ∧ (ker.productQ Qf X).cols = X.cols) ∧
  (∀ (M : Mat R) (e : ℚ) (p : Mat R × Mat R), (ker.tsvd M e).1 = some p →
    p.1.cols = p.2.cols ∧ 1 ≤ p.1.cols ∧ p.1.rows = M.rows ∧ p.2.rows = M.cols) ∧
  (∀ (A : Mat R) (e : ℚ) (p : Nat), (ker.mgs A e p).1.rows = A.rows)

/-! ## Dense blocks, H-matrix collaborator, mixed products -/

/-- `FullMatrix<T>`: index sets plus the dense panel. -/
structure FullM (R : Type) where
  rows_ : IndexSet
  cols_ : IndexSet
  data : Mat R

/-- Modelled from the spec: an H-matrix operand is used by the Rk algebra only
through its index sets and its `gemv`; it is represented by its dense value. -/
structure HM (R : Type) where
  rows : IndexSet
  cols : IndexSet
  val : Mat R

/-- Modelled from the spec: `HMatrix::gemv(trans, α, x, β, y)` performs
`y ← α·op(H)·x + β·y`. -/
def HM.gemv [CommRing R] [StarRing R] (h : HM R) (trans : Char) (α : R) (x : Mat R)
    (β : R) (y : Mat R) : Mat R :=
  y.gemm trans 'N' α h.val x β

/-- Modelled from the spec: the `NoCompression` tag, a distinguished value of
the `CompressionMethod` enum (tags are represented by naturals). -/
def NoCompression : Nat := 0

/-- `RkMatrix<T>::multiplyRkFull(transR, transM, rk, m)`. -/
def multiplyRkFull [CommRing R] [StarRing R] (transR transM : Char) (rk : RkM R)
    (m : FullM R) : Option (RkM R) :=
  let rkRows := if transR = 'N' then rk.rows else rk.cols
  let mCols := if transM = 'N' then m.cols_ else m.rows_
  if rk.rank = 0 then
    some ⟨rkRows, mCols, none, none, NoCompression⟩
  else
    match (if transR = 'N' then rk.a else rk.b), (if transR = 'N' then rk.b else rk.a) with
    | some a, some b =>
      let newB0 : Mat R := Mat.zeros (if transM = 'N' then m.data.cols else m.data.rows) b.cols
      let newA :=
        if transR = 'C' then a.copy.conjugate else a.copy
      let newB :=
        if transR = 'C' then
          if transM = 'N' then (newB0.gemm 'C' 'N' 1 m.data b 0).conjugate
          else if transM = 'T' then newB0.gemm 'N' 'N' 1 m.data b.copy.conjugate 0
          else (newB0.gemm 'N' 'N' 1 m.data b 0).conjugate
        else
          if transM = 'N' then newB0.gemm 'T' 'N' 1 m.data b 0
          else if transM = 'T' then newB0.gemm 'N' 'N' 1 m.data b 0
          else (newB0.gemm 'N' 'N' 1 m.data b.copy.conjugate 0).conjugate
      some ⟨rkRows, mCols, some newA, some newB, rk.method⟩
    | _, _ => none

/-- `RkMatrix<T>::multiplyFullRk(transM, transR, m, rk)`. -/
def multiplyFullRk [CommRing R] [StarRing R] (transM transR : Char) (m : FullM R)
    (rk : RkM R) : Option (RkM R) :=
  match (if transR = 'N' then rk.a else rk.b), (if transR = 'N' then rk.b else rk.a) with
  | some a, some b =>
    let rkCols := if transR = 'N' then rk.cols else rk.rows
    let mRows := if transM = 'N' then m.rows_ else m.cols_
    let newA0 : Mat R := Mat.zeros mRows.size b.cols
    let newB :=
      if transR = 'C' then b.copy.conjugate else b.copy
    let newA :=
      if transR = 'C' then
        if transM = 'N' then newA0.gemm 'N' 'N' 1 m.data a.copy.conjugate 0
        else if transM = 'T' then (newA0.gemm 'C' 'N' 1 m.data a 0).conjugate
        else (newA0.gemm 'T' 'N' 1 m.data a 0).conjugate
      else newA0.gemm transM 'N' 1 m.data a 0
    some ⟨mRows, rkCols, some newA, some newB, rk.method⟩
  | _, _ => none

/-- `RkMatrix<T>::multiplyRkH(transR, transH, rk, h)`. -/
def multiplyRkH [CommRing R] [StarRing R] (transR transH : Char) (rk : RkM R)
    (h : HM R) : Option (RkM R) :=
  match (if transR = 'N' then rk.a else rk.b), (if transR = 'N' then rk.b else rk.a) with
  | some a, some b =>
    let rkRows := if transR = 'N' then rk.rows else rk.cols
    let newCols := if transH = 'N' then h.cols else h.rows
    let newB0 : Mat R := Mat.zeros (if transH = 'N' then h.cols.size else h.rows.size) b.cols
    let newA :=
      if transR = 'C' then a.copy.conjugate else a.copy
    let newB :=
      if transR = 'C' then
        if transH = 'N' then (h.gemv 'C' 1 b 0 newB0).conjugate
        else if transH = 'T' then h.gemv 'N' 1 b.copy.conjugate 0 newB0
        else (h.gemv 'N' 1 b 0 newB0).conjugate
      else
        if transH = 'N' then h.gemv 'T' 1 b 0 newB0
        else if transH = 'T' then h.gemv 'N' 1 b 0 newB0
        else (h.gemv 'N' 1 b.copy.conjugate 0 newB0).conjugate
    some ⟨rkRows, newCols, some newA, some newB, rk.method⟩
  | _, _ => none

/-- `RkMatrix<T>::multiplyHRk(transH, transR, h, rk)`. -/
def multiplyHRk [CommRing R] [StarRing R] (transH transR : Char) (h : HM R)
    (rk : RkM R) : Option (RkM R) :=
  if rk.rank = 0 then
    some ⟨(if transH = 'N' then h.rows else h.cols),
          (if transR = 'N' then rk.cols else rk.rows), none, none, rk.method⟩
  else
    match (if transR = 'N' then rk.a else rk.b), (if transR = 'N' then rk.b else rk.a) with
    | some a, some b =>
      let rkCols := if transR = 'N' then rk.cols else rk.rows
      let newRows := if transH = 'N' then h.rows else h.cols
      let newA0 : Mat R := Mat.zeros (if transH = 'N' then h.rows.size else h.cols.size) b.cols
      let newB :=
        if transR = 'C' then b.copy.conjugate else b.copy
      let newA :=
        if transR = 'C' then
          if transH = 'N' then h.gemv 'N' 1 a.copy.conjugate 0 newA0
          else if transH = 'T' then (h.gemv 'C' 1 a 0 newA0).conjugate
          else (h.gemv 'T' 1 a 0 newA0).conjugate
        else h.gemv transH 1 a 0 newA0
      some ⟨newRows, rkCols, some newA, some newB, rk.method⟩
    | _, _ => none

/-! ## Coalesced additive combination (`formattedAddParts`) -/

/-- Panel ortho flags of an Rk block (read through `a->getOrtho()` etc.). -/
def RkM.aOrtho (r : RkM R) : Bool :=
  match r.a with
  | some A => A.ortho
  | none => false

def RkM.bOrtho (r : RkM R) : Bool :=
  match r.b with
  | some B => B.ortho
  | none => false

/-- Default entry used for out-of-range array reads (never reached on the
paths exercised by the source's loops). -/
def dfltPart (R : Type) [CommRing R] : R × RkM R :=
  ((0 : R), (⟨⟨0, 0⟩, ⟨0, 0⟩, none, none, 0⟩ : RkM R))

/-- The filtering loop of `formattedAddParts` (lines 489-510): seed with
`this` (coefficient one) when non-empty, then keep the parts that are
non-null, of nonzero rank, non-empty and with nonzero coefficient. -/
def usedList [CommRing R] [DecidableEq R] (r : RkM R)
    (parts : List (R × Option (RkM R))) : List (R × RkM R) :=
  (if r.rank ≠ 0 then [((1 : R), r)] else []) ++
    parts.filterMap (fun p =>
      match p.2 with
      | some q =>
        if q.rank = 0 ∨ q.rows.size = 0 ∨ q.cols.size = 0 ∨ p.1 = 0 then none
        else some (p.1, q)
      | none => none)

/-- `std::swap` of two array slots. -/
def listSwap {α : Type} (l : List α) (i j : Nat) : List α :=
  match l.get? i, l.get? j with
  | some x, some y => (l.set i y).set j x
  | _, _ => l

/-- First `HMAT_MGS_BESTRK` pass: index and gain of the entry with orthogonal
panels and maximum rank (gain `(aOrtho + bOrtho)·rank²`). -/
def bestRkPhase1 [CommRing R] (l : List (R × RkM R)) : Int × Int :=
  (List.range l.length).foldl
    (fun st i =>
      let p := l.getD i (dfltPart R)
      let g : Int := ((cond p.2.aOrtho 1 0) + (cond p.2.bOrtho 1 0)) *
        (p.2.rank : Int) * (p.2.rank : Int)
      if st.1 < g then (g, (i : Int)) else st)
    (-1, -1)

/-- Second `HMAT_MGS_BESTRK` pass over ordered pairs `(i1, i2)`, carrying the
gain of the first pass: orthogonality of the second block counts only when
its support does not intersect the first one's.  Returns
`(bestGain, best_i1, best_i2, best_rkA, best_rkB)`. -/
def bestRkPhase2 [CommRing R] (l : List (R × RkM R)) (bestGain0 : Int) :
    Int × Int × Int × Int × Int :=
  (List.range l.length).foldl
    (fun st i1 =>
      (List.range l.length).foldl
        (fun st i2 =>
          if i1 ≠ i2 then
            let p1 := l.getD i1 (dfltPart R)
            let p2 := l.getD i2 (dfltPart R)
            let rkA : Int := if p1.2.aOrtho then (p1.2.rank : Int) +
                (if p2.2.aOrtho ∧ ¬ (p1.2.rows.intersects p2.2.rows) = true
                 then (p2.2.rank : Int) else 0)
              else 0
            let rkB : Int := if p1.2.bOrtho then (p1.2.rank : Int) +
                (if p2.2.bOrtho ∧ ¬ (p1.2.cols.intersects p2.2.cols) = true
                 then (p2.2.rank : Int) else 0)
              else 0
            let g := rkA * rkA + rkB * rkB
            if st.1 < g then (g, (i1 : Int), (i2 : Int), rkA, rkB) else st
          else st)
        st)
    (bestGain0, -1, -1, -1, -1)

/-- The `HMAT_MGS_BESTRK` reordering (lines 534-591): move the best single
block first, then — if an ordered pair beats it — that pair to positions 0
and 1; returns the reordered list with the initial pivots. -/
def bestRkReorder [CommRing R] (l : List (R × RkM R)) :
    List (R × RkM R) × Nat × Nat :=
  let ph1 := bestRkPhase1 l
  let l1 := if 0 < ph1.2 then listSwap l 0 ph1.2.toNat else l
  let ipA1 := if (l1.headD (dfltPart R)).2.aOrtho then (l1.headD (dfltPart R)).2.rank else 0
  let ipB1 := if (l1.headD (dfltPart R)).2.bOrtho then (l1.headD (dfltPart R)).2.rank else 0
  let ph2 := bestRkPhase2 l1 ph1.1
  if 0 ≤ ph2.2.1 then
    let i1 := ph2.2.1.toNat
    let l2 := listSwap l1 0 i1
    let i2 := if ph2.2.2.1 = 0 then i1 else ph2.2.2.1.toNat
    let l3 := listSwap l2 1 i2
    (l3, ph2.2.2.2.1.toNat, ph2.2.2.2.2.toNat)
  else (l1, ipA1, ipB1)

/-- One iteration of the concatenation loop (lines 604-622): copy the part's
`a` at `(rowOffset, rankOffset)`, scale that slice by `αᵢ` when `αᵢ ≠ 1`,
copy `b` at `(colOffset, rankOffset)`, advance the rank offset. -/
def concatStep [CommRing R] [DecidableEq R] (prows pcols : IndexSet)
    (st : Mat R × Mat R × Nat) (p : R × RkM R) : Mat R × Mat R × Nat :=
  let pa := p.2.a.getD (Mat.zeros 0 0)
  let pb := p.2.b.getD (Mat.zeros 0 0)
  let rowOffset := p.2.rows.offset - prows.offset
  let ra1 := st.1.copyAt pa rowOffset st.2.2
  let ra2 := if p.1 ≠ 1 then ra1.scaleBlock p.1 rowOffset pa.rows st.2.2 pa.cols else ra1
  let colOffset := p.2.cols.offset - pcols.offset
  let rb1 := st.2.1.copyAt pb colOffset st.2.2
  (ra2, rb1, st.2.2 + p.2.rank)

/-- The whole concatenation loop over freshly zeroed `resultA`, `resultB`. -/
def concatPanels [CommRing R] [DecidableEq R] (prows pcols : IndexSet)
    (m n total : Nat) (l : List (R × RkM R)) : Mat R × Mat R × Nat :=
  l.foldl (concatStep prows pcols) (Mat.zeros m total, Mat.zeros n total, 0)

/-- `RkMatrix<T>::formattedAddParts` — dense list variant (lines 632-658):
evaluate `this`, axpy every non-null dense part into the matching sub-view,
compress the accumulated block with `truncatedSvd` at `ε_rec`. -/
def RkM.formattedAddPartsDense [CommRing R] [StarRing R] [Algebra ℚ R]
    (ker : Kernels R) (ctl : RkApproximationControl) (r : RkM R)
    (parts : List (R × Option (FullM R))) : RkM R :=
  let me := parts.foldl
    (fun acc p =>
      match p.2 with
      | some f => acc.axpyAt p.1 f.data (f.rows_.offset - r.rows.offset)
          (f.cols_.offset - r.cols.offset)
      | none => acc)
    r.evalM
  let tsv := ker.tsvd me ctl.recompressionEpsilon
  ⟨r.rows, r.cols, tsv.1.map Prod.fst, tsv.1.map Prod.snd, tsv.2⟩

/-- `RkMatrix<T>::formattedAddParts` — Rk list variant (lines 475-630).
`bestRk` models `HMAT_MGS_BESTRK`; the remaining toggles are forwarded to
`truncate`. -/
def RkM.formattedAddParts [CommRing R] [StarRing R] [Algebra ℚ R] [DecidableEq R]
    (ker : Kernels R) (ctl : RkApproximationControl)
    (l2 uip recompMGS bestRk : Bool) (r : RkM R)
    (parts : List (R × Option (RkM R))) (dotruncate : Bool) : RkM R :=
  let used := usedList r parts
  let rankTotal := (used.map (fun p => p.2.rank)).sum
  let minMethod := used.foldl (fun acc p => min acc p.2.method) r.method
  if used.length = 0 then ⟨r.rows, r.cols, none, none, minMethod⟩
  else if min r.rows.size r.cols.size ≤ rankTotal then
    let fullParts : List (R × Option (FullM R)) :=
      if r.rank ≠ 0 then
        ((1 : R), (none : Option (FullM R))) ::
          (used.drop 1).map (fun p => (p.1, some ⟨p.2.rows, p.2.cols, p.2.evalM⟩))
      else used.map (fun p => (p.1, some ⟨p.2.rows, p.2.cols, p.2.evalM⟩))
    r.formattedAddPartsDense ker ctl fullParts
  else
    let reord :=
      if bestRk then bestRkReorder used
      else (used,
        if (used.headD (dfltPart R)).2.aOrtho then (used.headD (dfltPart R)).2.rank else 0,
        if (used.headD (dfltPart R)).2.bOrtho then (used.headD (dfltPart R)).2.rank else 0)
    let cc := concatPanels r.rows r.cols r.rows.size r.cols.size rankTotal reord.1
    let rk : RkM R := ⟨r.rows, r.cols, some cc.1, some cc.2.1, minMethod⟩
    if 1 < used.length ∧ dotruncate = true then
      rk.truncate ker ctl l2 uip recompMGS ctl.recompressionEpsilon reord.2.1 reord.2.2
    else rk

/-- The dense value of a contribution embedded at its offsets inside the
parent frame (specification side: `M(partᵢ)` as an `m × n` matrix). -/
def padEntry [CommRing R] [StarRing R] (prows pcols : IndexSet) (q : RkM R)
    (i j : Nat) : R :=
  let ro := q.rows.offset - prows.offset
  let co := q.cols.offset - pcols.offset
  if ro ≤ i ∧ i < ro + q.rows.size ∧ co ≤ j ∧ j < co + q.cols.size then
    q.evalM.entry (i - ro) (j - co)
  else 0

/-- Specification side: the entry of `M(R) + Σᵢ αᵢ·M(partsᵢ)`. -/
def exactSumEntry [CommRing R] [StarRing R] (r : RkM R)
    (parts : List (R × Option (RkM R))) (i j : Nat) : R :=
  r.evalM.entry i j +
    (parts.map (fun p =>
      match p.2 with
      | some q => p.1 * padEntry r.rows r.cols q i j
      | none => 0)).sum

/-- Specification side: `M(R) + Σᵢ αᵢ·M(partsᵢ)` as a matrix. -/
def exactSumMat [CommRing R] [StarRing R] (r : RkM R)
    (parts : List (R × Option (RkM R))) : Mat R :=
  ⟨r.rows.size, r.cols.size, fun i j => exactSumEntry r parts i j, false⟩

/-- A second concrete rational Rk block and a dummy kernel bundle, used in
witness theorems. -/
def wA2 : Mat ℚ := ⟨2, 1, fun i _ => if i = 0 then 5 else 6, false⟩

def wB2 : Mat ℚ := ⟨2, 1, fun i _ => if i = 0 then 7 else 8, false⟩

def wRk2 : RkM ℚ := ⟨⟨0, 2⟩, ⟨0, 2⟩, some wA2, some wB2, 3⟩

def wKer : Kernels ℚ :=
  ⟨fun A _ => (A, A), fun _ X => X, fun A => (A, [], A),
   fun A _ _ => (A, A, 0), fun _ _ => (none, 0), id⟩

/-- A wide concrete block (rank above `min(m, n)`) and a kernel bundle whose
`truncatedSvd` records the tolerance it was called with, used for C4. -/
def wRkWide : RkM ℚ :=
  ⟨⟨0, 1⟩, ⟨0, 1⟩, some ⟨1, 2, fun _ _ => 1, false⟩, some ⟨1, 2, fun _ _ => 1, false⟩, 0⟩

def wKerC4 : Kernels ℚ :=
  ⟨fun A _ => (A, A), fun _ X => X, fun A => (A, [], A), fun A _ _ => (A, A, 0),
   fun _ e => (none, if e = 5 then 99 else 88), id⟩

/-- A participating entry of the concatenation loop of `formattedAddParts`:
both panels present with the widths and row counts the loop relies on, and
nonzero rank (guaranteed for every entry kept by the filtering loop). -/
def PartOK (p : R × RkM R) : Prop :=
  ∃ pa pb, p.2.a = some pa ∧ p.2.b = some pb ∧ pa.cols = p.2.rank ∧
    pb.cols = p.2.rank ∧ pa.rows = p.2.rows.size ∧ pb.rows = p.2.cols.size ∧
    p.2.rank ≠ 0

/-- Concrete data for the `formattedAddParts` witness: a 3×3 rank-1 target
and one rank-1 contribution supported on a strict sub-block. -/
def wC1r : RkM ℚ :=
  ⟨⟨0, 3⟩, ⟨0, 3⟩, some ⟨3, 1, fun i _ => (i : ℚ) + 1, false⟩,
   some ⟨3, 1, fun _ _ => 1, false⟩, 2⟩

def wC1q : RkM ℚ :=
  ⟨⟨1, 2⟩, ⟨0, 1⟩, some ⟨2, 1, fun _ _ => 1, false⟩,
   some ⟨1, 1, fun _ _ => 2, false⟩, 1⟩

def wC1parts : List (ℚ × Option (RkM ℚ)) := [((1 : ℚ), some wC1q)]

/-- Concrete data for the `formattedAddParts` counterexample: an empty 1×1
target plus a single rank-1 part, which trips the dense shortcut. -/
def cC1q : RkM ℚ :=
  ⟨⟨0, 1⟩, ⟨0, 1⟩, some ⟨1, 1, fun _ _ => 1, false⟩,
   some ⟨1, 1, fun _ _ => 1, false⟩, 0⟩

def cC1r : RkM ℚ := ⟨⟨0, 1⟩, ⟨0, 1⟩, none, none, 0⟩

def cC1parts : List (ℚ × Option (RkM ℚ)) := [((1 : ℚ), some cC1q)]

/-! ## Theorems -/

lemma firstBelow_le_length (thr : ℚ) (l : List ℚ) : firstBelow thr l ≤ l.length := by
  induction l with
  | nil => simp [firstBelow]
  | cons x xs ih =>
    simp only [firstBelow, List.length_cons]
    split
    · omega
    · omega

lemma firstBelow_gt (thr : ℚ) (l : List ℚ) :
    ∀ j < firstBelow thr l, thr < l.getD j 0 := by
  induction l with
  | nil => simp [firstBelow]
  | cons x xs ih =>
    intro j hj
    simp only [firstBelow] at hj
    by_cases hx : x ≤ thr
    · simp [hx] at hj
    · simp only [hx, if_false] at hj
      cases j with
      | zero => simpa using lt_of_not_le hx
      | succ j' =>
        simp only [List.getD_cons_succ]
        exact ih j' (by omega)

lemma firstBelow_hit (thr : ℚ) (l : List ℚ) (h : firstBelow thr l < l.length) :
    l.getD (firstBelow thr l) 0 ≤ thr := by
  induction l with
  | nil => simp at h
  | cons x xs ih =>
    simp only [firstBelow] at h ⊢
    by_cases hx : x ≤ thr
    · simpa [hx] using hx
    · simp only [hx, if_false] at h ⊢
      simp only [List.length_cons] at h
      simpa using ih (by omega)

/-- Claim C2: with a nonzero configured rank `k`, `findK` is the hard cap
`min(k, len σ)` whatever `ε`; with `k = 0`, it is the smallest index `i` with
`σ[i] ≤ ε·S` (`S` the sum of the singular values by default, `σ[0]` under the
`HMAT_L2_CRITERION` toggle), and `len σ` when no index qualifies. -/
theorem C2_findK_spec (ctl : RkApproximationControl) (l2 : Bool) (sigma : List ℚ)
    (eps : ℚ) (heps : 0 ≤ eps) :
    (ctl.k ≠ 0 → findK ctl l2 sigma eps = min ctl.k sigma.length) ∧
    (ctl.k = 0 →
      (findK ctl l2 sigma eps ≤ sigma.length ∧
       (∀ j < findK ctl l2 sigma eps,
         eps * (if l2 then sigma.headD 0 else sigma.sum) < sigma.getD j 0) ∧
       (findK ctl l2 sigma eps < sigma.length →
         sigma.getD (findK ctl l2 sigma eps) 0 ≤
           eps * (if l2 then sigma.headD 0 else sigma.sum)))) := by
  constructor
  · intro hk
    simp [findK, hk]
  · intro hk
    have hfk : findK ctl l2 sigma eps =
        firstBelow ((if l2 then sigma.headD 0 else sigma.sum) * eps) sigma := by
      simp [findK, hk]
    refine ⟨?_, ?_, ?_⟩
    · rw [hfk]; exact firstBelow_le_length _ _
    · intro j hj
      rw [hfk] at hj
      have := firstBelow_gt ((if l2 then sigma.headD 0 else sigma.sum) * eps) sigma j hj
      calc eps * (if l2 then sigma.headD 0 else sigma.sum)
          = (if l2 then sigma.headD 0 else sigma.sum) * eps := by ring
        _ < _ := this
    · intro hlt
      rw [hfk] at hlt ⊢
      have := firstBelow_hit ((if l2 then sigma.headD 0 else sigma.sum) * eps) sigma hlt
      calc sigma.getD (firstBelow _ sigma) 0
          ≤ (if l2 then sigma.headD 0 else sigma.sum) * eps := this
        _ = eps * (if l2 then sigma.headD 0 else sigma.sum) := by ring

/-- Witness for C2 at a concrete input: `k = 0`, `σ = [4, 2, 1]`, `ε = 3/10`
(threshold `21/10`), so the smallest qualifying index is `1`. -/
theorem C2_findK_spec_witness :
    (0 : ℚ) ≤ 3/10 ∧
      ((⟨0, 1⟩ : RkApproximationControl).k = 0 →
        (findK ⟨0, 1⟩ false [4, 2, 1] (3/10) ≤ ([4, 2, 1] : List ℚ).length ∧
         (∀ j < findK ⟨0, 1⟩ false [4, 2, 1] (3/10),
           (3/10 : ℚ) * (if false then ([4, 2, 1] : List ℚ).headD 0 else ([4, 2, 1] : List ℚ).sum) <
             ([4, 2, 1] : List ℚ).getD j 0) ∧
         (findK ⟨0, 1⟩ false [4, 2, 1] (3/10) < ([4, 2, 1] : List ℚ).length →
           ([4, 2, 1] : List ℚ).getD (findK ⟨0, 1⟩ false [4, 2, 1] (3/10)) 0 ≤
             (3/10 : ℚ) * (if false then ([4, 2, 1] : List ℚ).headD 0 else ([4, 2, 1] : List ℚ).sum)))) :=
  ⟨by norm_num, (C2_findK_spec ⟨0, 1⟩ false [4, 2, 1] (3/10) (by norm_num)).2⟩

/-! ### C9: `scale` -/

@[simp] lemma Mat.scale_rows [CommRing R] (A : Mat R) (α : R) :
    (A.scale α).rows = A.rows := rfl

@[simp] lemma Mat.scale_cols [CommRing R] (A : Mat R) (α : R) :
    (A.scale α).cols = A.cols := rfl

@[simp] lemma Mat.scale_entry [CommRing R] (A : Mat R) (α : R) (i j : Nat) :
    (A.scale α).entry i j = α * A.entry i j := rfl

lemma evalM_rows [CommRing R] [StarRing R] (r : RkM R) :
    r.evalM.rows = r.rows.size := by
  unfold RkM.evalM
  split
  · rcases r.a with _ | A <;> rcases r.b with _ | B <;> simp [Mat.gemm, Mat.zeros]
  · simp [Mat.zeros]

lemma evalM_cols [CommRing R] [StarRing R] (r : RkM R) :
    r.evalM.cols = r.cols.size := by
  unfold RkM.evalM
  split
  · rcases r.a with _ | A <;> rcases r.b with _ | B <;> simp [Mat.gemm, Mat.zeros]
  · simp [Mat.zeros]

lemma evalM_of_rank_zero [CommRing R] [StarRing R] (r : RkM R) (hk : r.rank = 0) :
    r.evalM = Mat.zeros r.rows.size r.cols.size := by
  simp [RkM.evalM, hk]

lemma evalM_of_b_none [CommRing R] [StarRing R] (r : RkM R) (hb : r.b = none) :
    r.evalM = Mat.zeros r.rows.size r.cols.size := by
  unfold RkM.evalM
  split
  · rcases r.a with _ | A <;> simp [hb]
  · rfl

lemma evalM_entry [CommRing R] [StarRing R] (r : RkM R) (A B : Mat R)
    (ha : r.a = some A) (hb : r.b = some B) (hk : A.cols ≠ 0) (i j : Nat) :
    r.evalM.entry i j = ∑ c ∈ Finset.range A.cols, A.entry i c * B.entry j c := by
  have hrk : r.rank ≠ 0 := by simpa [RkM.rank, ha] using hk
  unfold RkM.evalM
  rw [if_pos hrk]
  rw [ha, hb]
  simp [Mat.gemm, Mat.zeros, Mat.opE, Mat.opCols]

lemma rank_scale [CommRing R] (r : RkM R) (α : R) : (r.scale α).rank = r.rank := by
  cases ha : r.a <;> simp [RkM.scale, RkM.rank, ha, Mat.scale]

lemma b_scale [CommRing R] (r : RkM R) (α : R) : (r.scale α).b = r.b := by
  cases ha : r.a <;> simp [RkM.scale, ha]

lemma rows_scale [CommRing R] (r : RkM R) (α : R) : (r.scale α).rows = r.rows := by
  cases ha : r.a <;> simp [RkM.scale, ha]

lemma cols_scale [CommRing R] (r : RkM R) (α : R) : (r.scale α).cols = r.cols := by
  cases ha : r.a <;> simp [RkM.scale, ha]

lemma method_scale [CommRing R] (r : RkM R) (α : R) : (r.scale α).method = r.method := by
  cases ha : r.a <;> simp [RkM.scale, ha]

/-- Claim C9: `scale(α)` multiplies only panel `a`, so the dense value becomes
`α·M(R)`, while `b`, the index sets, the rank and the method tag are
unchanged — including on the empty Rk. -/
theorem C9_scale_spec [CommRing R] [StarRing R] (r : RkM R) (α : R) :
    MatEq ((r.scale α).evalM) ((r.evalM).scale α) ∧
    (r.scale α).b = r.b ∧ (r.scale α).rows = r.rows ∧ (r.scale α).cols = r.cols ∧
    (r.scale α).rank = r.rank ∧ (r.scale α).method = r.method := by
  refine ⟨?_, b_scale r α, rows_scale r α, cols_scale r α, rank_scale r α, method_scale r α⟩
  refine ⟨by simp [evalM_rows, rows_scale], ?_, ?_⟩
  · simp [evalM_cols, cols_scale]
  intro i _ j _
  by_cases hk : r.rank = 0
  · rw [evalM_of_rank_zero _ (by rw [rank_scale]; exact hk), evalM_of_rank_zero r hk,
      rows_scale, cols_scale]
    simp [Mat.scale, Mat.zeros]
  · cases ha : r.a with
    | none => exact absurd (by simp [RkM.rank, ha]) hk
    | some A =>
      cases hb : r.b with
      | none =>
        rw [evalM_of_b_none _ (by rw [b_scale]; exact hb), evalM_of_b_none r hb,
          rows_scale, cols_scale]
        simp [Mat.scale, Mat.zeros]
      | some B =>
        have hAk : A.cols ≠ 0 := by simpa [RkM.rank, ha] using hk
        have hsa : (r.scale α).a = some (A.scale α) := by simp [RkM.scale, ha]
        have hsb : (r.scale α).b = some B := by rw [b_scale]; exact hb
        rw [evalM_entry (r.scale α) (A.scale α) B hsa hsb (by simpa using hAk)]
        simp only [Mat.scale_entry, Mat.scale_cols]
        rw [evalM_entry r A B ha hb hAk]
        simp only [Finset.mul_sum]
        exact Finset.sum_congr rfl fun c _ => by ring

/-! ### C10: `Tree::insertChild` -/

lemma length_updAt (s : TreeStore) (i : Nat) (f : TreeNode → TreeNode) :
    (updAt s i f).length = s.length := by
  unfold updAt
  cases h : s.get? i <;> simp

lemma getD_get?_eq (s : TreeStore) (i : Nat) :
    getNode s i = (s.get? i).getD ⟨0, [], none⟩ := by
  simp [getNode, List.getD_eq_getElem?_getD]

lemma getNode_updAt_self (s : TreeStore) (i : Nat) (f : TreeNode → TreeNode)
    (h : i < s.length) : getNode (updAt s i f) i = f (getNode s i) := by
  unfold updAt
  cases hg : s.get? i with
  | none => exact absurd (List.get?_eq_none.mp hg) (by omega)
  | some v =>
    rw [getD_get?_eq, getD_get?_eq, hg]
    rw [List.get?_set_eq_of_lt _ (by simpa using h)]
    simp

lemma getNode_updAt_other (s : TreeStore) (i j : Nat) (f : TreeNode → TreeNode)
    (h : j ≠ i) : getNode (updAt s i f) j = getNode s j := by
  unfold updAt
  cases hg : s.get? i with
  | none => rfl
  | some v =>
    rw [getD_get?_eq, getD_get?_eq]
    rw [List.get?_set_ne _ _ (fun hij => h hij.symm)]

lemma getD_set_self {α : Type} (l : List α) (i : Nat) (v d : α) (h : i < l.length) :
    (l.set i v).getD i d = v := by
  induction l generalizing i with
  | nil => simp at h
  | cons x xs ih =>
    cases i with
    | zero => simp
    | succ n => simpa using ih n (by simpa using h)

/-- Claim C10, corrected: for distinct nodes `t ≠ c` (a node inserted under
itself leaves `c.depth = t.depth`, see the counterexample), `insertChild`
stores `c` at index `i` of `t`, sets `c.father = t` and `c.depth = t.depth+1`,
grows the children vector to at least `i+1` entries, and deletes no node: the
store keeps its size and every node other than `t` and `c` — in particular a
child previously stored at index `i` — is unchanged. -/
theorem C10_insertChild_spec (s : TreeStore) (t i c : Nat)
    (ht : t < s.length) (hc : c < s.length) (htc : t ≠ c) :
    getChild (insertChild s t i c) t i = some c ∧
    (getNode (insertChild s t i c) c).father = some t ∧
    (getNode (insertChild s t i c) c).depth = (getNode (insertChild s t i c) t).depth + 1 ∧
    i + 1 ≤ nbChild (insertChild s t i c) t ∧
    (insertChild s t i c).length = s.length ∧
    (∀ d, d ≠ t → d ≠ c → getNode (insertChild s t i c) d = getNode s d) := by
  unfold insertChild
  set f1 : TreeNode → TreeNode := fun n =>
    if n.children.length ≤ i then
      { n with children := n.children ++ List.replicate (i + 1 - n.children.length) none }
    else n with hf1
  set s1 := updAt s t f1 with hs1
  set s2 := updAt s1 c (fun n => { n with father := some t }) with hs2
  set s3 := updAt s2 t (fun n => { n with children := n.children.set i (some c) }) with hs3
  have hl1 : s1.length = s.length := length_updAt _ _ _
  have hl2 : s2.length = s.length := by rw [hs2, length_updAt, hl1]
  have hl3 : s3.length = s.length := by rw [hs3, length_updAt, hl2]
  have ht1 : t < s1.length := by omega
  have ht2 : t < s2.length := by omega
  have ht3 : t < s3.length := by omega
  have hc3 : c < s3.length := by omega
  -- node t after step 3: children grown then set
  have hn1 : getNode s1 t = f1 (getNode s t) := getNode_updAt_self _ _ _ ht
  have hn2 : getNode s2 t = getNode s1 t := getNode_updAt_other _ _ _ _ htc
  have hn3 : getNode s3 t =
      { getNode s2 t with children := (getNode s2 t).children.set i (some c) } :=
    getNode_updAt_self _ _ _ ht2
  have hn4t : getNode (updAt s3 c (fun n => { n with depth := (getNode s3 t).depth + 1 })) t =
      getNode s3 t := getNode_updAt_other _ _ _ _ htc
  have hchild_len : i + 1 ≤ ((getNode s3 t).children).length := by
    rw [hn3]
    simp only [List.length_set]
    rw [hn2, hn1, hf1]
    by_cases hlen : (getNode s t).children.length ≤ i
    · simp only [hlen, if_true, List.length_append, List.length_replicate]
      omega
    · simp only [hlen, if_false]
      omega
  refine ⟨?_, ?_, ?_, ?_, ?_, ?_⟩
  · -- getChild
    unfold getChild
    rw [hn4t, hn3]
    apply getD_set_self
    have := hchild_len
    rw [hn3] at this
    simp only [List.length_set] at this
    omega
  · -- father
    rw [getNode_updAt_self _ _ _ hc3]
    show (getNode s3 c).father = some t
    rw [hs3, getNode_updAt_other _ _ _ _ (fun h => htc h.symm)]
    rw [hs2, getNode_updAt_self _ _ _ (by omega)]
  · -- depth
    rw [getNode_updAt_self _ _ _ hc3, hn4t]
  · -- nbChild
    unfold nbChild
    rw [hn4t]
    exact hchild_len
  · -- length
    rw [length_updAt, hl3]
  · -- frame
    intro d hdt hdc
    rw [getNode_updAt_other _ _ _ _ hdc, getNode_updAt_other _ _ _ _ hdt,
      getNode_updAt_other _ _ _ _ hdc, getNode_updAt_other _ _ _ _ hdt]

/-- Witness for C10 on a concrete two-node store. -/
theorem C10_insertChild_spec_witness :
    (0 : Nat) < 2 ∧ (1 : Nat) < 2 ∧ (0 : Nat) ≠ 1 ∧
    (getChild (insertChild [⟨0, [], none⟩, ⟨5, [], none⟩] 0 3 1) 0 3 = some 1 ∧
     (getNode (insertChild [⟨0, [], none⟩, ⟨5, [], none⟩] 0 3 1) 1).father = some 0 ∧
     (getNode (insertChild [⟨0, [], none⟩, ⟨5, [], none⟩] 0 3 1) 1).depth =
       (getNode (insertChild [⟨0, [], none⟩, ⟨5, [], none⟩] 0 3 1) 0).depth + 1 ∧
     3 + 1 ≤ nbChild (insertChild [⟨0, [], none⟩, ⟨5, [], none⟩] 0 3 1) 0 ∧
     (insertChild [⟨0, [], none⟩, ⟨5, [], none⟩] 0 3 1).length =
       ([⟨0, [], none⟩, ⟨5, [], none⟩] : TreeStore).length ∧
     (∀ d, d ≠ 0 → d ≠ 1 →
       getNode (insertChild [⟨0, [], none⟩, ⟨5, [], none⟩] 0 3 1) d =
         getNode [⟨0, [], none⟩, ⟨5, [], none⟩] d)) :=
  ⟨by decide, by decide, by decide,
   C10_insertChild_spec [⟨0, [], none⟩, ⟨5, [], none⟩] 0 3 1 (by decide) (by decide) (by decide)⟩

/-- Counterexample to C10 as stated: inserting a node under itself
(`t = c`, allowed by the claim's "every tree node t … and node c") updates the
shared depth field once, so `c.depth = t.depth + 1` fails afterwards. -/
theorem C10_insertChild_counterexample :
    ¬ ((getNode (insertChild [⟨0, [], none⟩] 0 0 0) 0).depth =
       (getNode (insertChild [⟨0, [], none⟩] 0 0 0) 0).depth + 1) := by
  decide

/-! ### C5: `gemv` -/

lemma sum_mul_swap [CommRing R] (K N : Nat) (f : Nat → R) (g : Nat → Nat → R)
    (h : Nat → R) :
    ∑ t ∈ Finset.range N, (∑ c ∈ Finset.range K, f c * g t c) * h t =
      ∑ c ∈ Finset.range K, f c * ∑ t ∈ Finset.range N, g t c * h t := by
  calc ∑ t ∈ Finset.range N, (∑ c ∈ Finset.range K, f c * g t c) * h t
      = ∑ t ∈ Finset.range N, ∑ c ∈ Finset.range K, f c * g t c * h t :=
        Finset.sum_congr rfl fun t _ => Finset.sum_mul _ _ _
    _ = ∑ c ∈ Finset.range K, ∑ t ∈ Finset.range N, f c * g t c * h t := Finset.sum_comm
    _ = ∑ c ∈ Finset.range K, f c * ∑ t ∈ Finset.range N, g t c * h t := by
        refine Finset.sum_congr rfl fun c _ => ?_
        rw [Finset.mul_sum]
        exact Finset.sum_congr rfl fun t _ => by ring

@[simp] lemma Mat.gemm_rows [CommRing R] [StarRing R] (C : Mat R) (ta tb : Char)
    (α : R) (A B : Mat R) (β : R) : (C.gemm ta tb α A B β).rows = C.rows := rfl

@[simp] lemma Mat.gemm_cols [CommRing R] [StarRing R] (C : Mat R) (ta tb : Char)
    (α : R) (A B : Mat R) (β : R) : (C.gemm ta tb α A B β).cols = C.cols := rfl

lemma Mat.gemm_entry [CommRing R] [StarRing R] (C : Mat R) (ta tb : Char)
    (α : R) (A B : Mat R) (β : R) (i j : Nat) :
    (C.gemm ta tb α A B β).entry i j =
      β * C.entry i j +
        α * ∑ c ∈ Finset.range (Mat.opCols ta A), Mat.opE ta A i c * Mat.opE tb B c j := rfl

@[simp] lemma Mat.zeros_entry [CommRing R] (m n i j : Nat) :
    (Mat.zeros (R := R) m n).entry i j = 0 := rfl

@[simp] lemma Mat.zeros_rows [CommRing R] (m n : Nat) :
    (Mat.zeros (R := R) m n).rows = m := rfl

@[simp] lemma Mat.zeros_cols [CommRing R] (m n : Nat) :
    (Mat.zeros (R := R) m n).cols = n := rfl

@[simp] lemma Mat.add_entry [CommRing R] (A B : Mat R) (i j : Nat) :
    (A.add B).entry i j = A.entry i j + B.entry i j := rfl

@[simp] lemma Mat.matmul_entry [CommRing R] (A B : Mat R) (i j : Nat) :
    (A.matmul B).entry i j = ∑ t ∈ Finset.range A.cols, A.entry i t * B.entry t j := rfl

@[simp] lemma Mat.matmul_rows [CommRing R] (A B : Mat R) :
    (A.matmul B).rows = A.rows := rfl

@[simp] lemma Mat.matmul_cols [CommRing R] (A B : Mat R) :
    (A.matmul B).cols = B.cols := rfl

@[simp] lemma Mat.copy_eq (A : Mat R) : A.copy = A := rfl

@[simp] lemma Mat.conjugate_entry [CommRing R] [StarRing R] (A : Mat R) (i j : Nat) :
    (A.conjugate).entry i j = star (A.entry i j) := rfl

@[simp] lemma Mat.conjugate_rows [CommRing R] [StarRing R] (A : Mat R) :
    (A.conjugate).rows = A.rows := rfl

@[simp] lemma Mat.conjugate_cols [CommRing R] [StarRing R] (A : Mat R) :
    (A.conjugate).cols = A.cols := rfl

@[simp] lemma Mat.transp_entry (A : Mat R) (i j : Nat) :
    (A.transp).entry i j = A.entry j i := rfl

@[simp] lemma Mat.transp_rows (A : Mat R) : (A.transp).rows = A.cols := rfl

@[simp] lemma Mat.transp_cols (A : Mat R) : (A.transp).cols = A.rows := rfl

@[simp] lemma Mat.ctransp_entry [CommRing R] [StarRing R] (A : Mat R) (i j : Nat) :
    (A.ctransp).entry i j = star (A.entry j i) := rfl

@[simp] lemma Mat.ctransp_rows [CommRing R] [StarRing R] (A : Mat R) :
    (A.ctransp).rows = A.cols := rfl

@[simp] lemma Mat.ctransp_cols [CommRing R] [StarRing R] (A : Mat R) :
    (A.ctransp).cols = A.rows := rfl

@[simp] lemma Mat.opE_N [CommRing R] [StarRing R] (A : Mat R) (i j : Nat) :
    Mat.opE 'N' A i j = A.entry i j := by
  unfold Mat.opE; rw [if_pos rfl]

@[simp] lemma Mat.opE_T [CommRing R] [StarRing R] (A : Mat R) (i j : Nat) :
    Mat.opE 'T' A i j = A.entry j i := by
  unfold Mat.opE; rw [if_neg (by decide), if_pos rfl]

@[simp] lemma Mat.opE_C [CommRing R] [StarRing R] (A : Mat R) (i j : Nat) :
    Mat.opE 'C' A i j = star (A.entry j i) := by
  unfold Mat.opE; rw [if_neg (by decide), if_neg (by decide)]

@[simp] lemma Mat.opCols_N (A : Mat R) : Mat.opCols 'N' A = A.cols := by
  unfold Mat.opCols; rw [if_pos rfl]

@[simp] lemma Mat.opCols_T (A : Mat R) : Mat.opCols 'T' A = A.rows := by
  unfold Mat.opCols; rw [if_neg (by decide)]

@[simp] lemma Mat.opCols_C (A : Mat R) : Mat.opCols 'C' A = A.rows := by
  unfold Mat.opCols; rw [if_neg (by decide)]

@[simp] lemma Mat.opMat_N [CommRing R] [StarRing R] (A : Mat R) :
    Mat.opMat 'N' A = A := by
  unfold Mat.opMat; rw [if_pos rfl]

@[simp] lemma Mat.opMat_T [CommRing R] [StarRing R] (A : Mat R) :
    Mat.opMat 'T' A = A.transp := by
  unfold Mat.opMat; rw [if_neg (by decide), if_pos rfl]

@[simp] lemma Mat.opMat_C [CommRing R] [StarRing R] (A : Mat R) :
    Mat.opMat 'C' A = A.ctransp := by
  unfold Mat.opMat; rw [if_neg (by decide), if_neg (by decide)]

lemma rank_ne_zero_of_inv [CommRing R] (r : RkM R) (A : Mat R)
    (hinv : r.Inv) (ha : r.a = some A) : r.rank ≠ 0 := by
  rcases hinv with ⟨h1, _⟩ | ⟨A', B', ha', _, _, hk1, _, _⟩
  · rw [h1] at ha; exact absurd ha (by simp)
  · rw [ha'] at ha
    cases ha
    have : r.rank = A.cols := by simp [RkM.rank, ha']
    omega

/-- Claim C5: `gemv(op, α, X, β, Y)` leaves `Y = β·Y + α·op(A·Bᵀ)·X` for
`op ∈ {N, T, C}`; a rank-0 block only scales `Y` by `β` (and leaves `Y`
untouched when `β = 1`); for `op = 'C'` the product computed is
`conj(B)·Aᴴ·X`, through a temporary conjugated copy, the block itself (hence
`B`) being unchanged. -/
theorem C5_gemv_spec [CommRing R] [StarRing R] [DecidableEq R] (r : RkM R)
    (trans : Char) (α β : R) (x y : Mat R)
    (htr : trans = 'N' ∨ trans = 'T' ∨ trans = 'C') (hinv : r.Inv) :
    MatEq ((r.gemv trans α x β y).1)
      ((y.scale β).add (((Mat.opMat trans r.evalM).matmul x).scale α)) ∧
    (r.gemv trans α x β y).2 = r ∧
    (r.rank = 0 → MatEq ((r.gemv trans α x β y).1) (y.scale β) ∧
      (β = 1 → (r.gemv trans α x β y).1 = y)) ∧
    (trans = 'C' → ∀ A B : Mat R, r.a = some A → r.b = some B →
      MatEq ((r.gemv trans α x β y).1)
        ((y.scale β).add ((((B.conjugate).matmul A.ctransp).matmul x).scale α))) := by
  by_cases hk : r.rank = 0
  · -- rank 0: only the β-scaling of y happens
    have hg : r.gemv trans α x β y = (if β ≠ 1 then y.scale β else y, r) := by
      simp [RkM.gemv, hk]
    have hval : MatEq ((r.gemv trans α x β y).1) (y.scale β) := by
      rw [hg]
      by_cases hβ : β = 1
      · subst hβ
        rw [if_neg (by simp)]
        exact ⟨rfl, rfl, fun i _ j _ => by simp⟩
      · rw [if_pos hβ]
        exact ⟨rfl, rfl, fun i _ j _ => rfl⟩
    have hM : r.evalM = Mat.zeros r.rows.size r.cols.size := evalM_of_rank_zero r hk
    refine ⟨?_, by rw [hg], fun _ => ⟨hval, fun hβ => by rw [hg]; simp [hβ]⟩, ?_⟩
    · refine ⟨hval.1, hval.2.1, fun i hi j hj => ?_⟩
      rw [hval.2.2 i hi j hj]
      have hz : ∑ t ∈ Finset.range (Mat.opMat trans r.evalM).cols,
          (Mat.opMat trans r.evalM).entry i t * x.entry t j = 0 := by
        rcases htr with h | h | h <;> subst h <;> rw [hM] <;> simp
      simp only [Mat.add_entry, Mat.scale_entry, Mat.matmul_entry, hz, mul_zero, add_zero]
    · intro _ A B ha _
      exact absurd hk (rank_ne_zero_of_inv r A hinv ha)
  · -- rank nonzero: both panels are present with matching widths
    rcases hinv with ⟨h1, _⟩ | ⟨A, B, ha, hb, hcols, _, hra, hrb⟩
    · exact absurd (by simp [RkM.rank, h1]) hk
    have hAk : A.cols ≠ 0 := by simpa [RkM.rank, ha] using hk
    have hMent : ∀ s t, r.evalM.entry s t =
        ∑ c ∈ Finset.range A.cols, A.entry s c * B.entry t c :=
      fun s t => evalM_entry r A B ha hb hAk s t
    rcases htr with h | h | h <;> subst h
    · -- trans = 'N'
      have hg : (r.gemv 'N' α x β y).1 =
          y.gemm 'N' 'N' α A ((Mat.zeros B.cols x.cols).gemm 'T' 'N' 1 B x 0) β := by
        simp [RkM.gemv, hk, ha, hb]
      refine ⟨?_, by simp [RkM.gemv, hk, ha, hb], fun h0 => absurd h0 hk,
        fun h => absurd h (by decide)⟩
      refine ⟨by rw [hg]; rfl, by rw [hg]; rfl, fun i _ j _ => ?_⟩
      rw [hg, Mat.gemm_entry]
      simp only [Mat.add_entry, Mat.scale_entry, Mat.matmul_entry, Mat.opMat_N,
        Mat.opCols_N, Mat.opE_N]
      congr 1
      rw [evalM_cols]
      have hstep : ∀ t ∈ Finset.range r.cols.size,
          r.evalM.entry i t * x.entry t j =
            (∑ c ∈ Finset.range A.cols, A.entry i c * B.entry t c) * x.entry t j :=
        fun t _ => by rw [hMent]
      rw [Finset.sum_congr rfl hstep, sum_mul_swap, ← hrb]
      congr 1
      refine Finset.sum_congr rfl fun c _ => ?_
      congr 1
      rw [Mat.gemm_entry]
      simp
    · -- trans = 'T'
      have hg : (r.gemv 'T' α x β y).1 =
          y.gemm 'N' 'N' α B ((Mat.zeros A.cols x.cols).gemm 'T' 'N' 1 A x 0) β := by
        simp [RkM.gemv, hk, ha, hb]
      refine ⟨?_, by simp [RkM.gemv, hk, ha, hb], fun h0 => absurd h0 hk,
        fun h => absurd h (by decide)⟩
      refine ⟨by rw [hg]; rfl, by rw [hg]; rfl, fun i _ j _ => ?_⟩
      rw [hg, Mat.gemm_entry]
      simp only [Mat.add_entry, Mat.scale_entry, Mat.matmul_entry, Mat.opMat_T,
        Mat.opCols_N, Mat.opE_N, Mat.transp_entry, Mat.transp_cols]
      congr 1
      rw [evalM_rows]
      have hstep : ∀ t ∈ Finset.range r.rows.size,
          r.evalM.entry t i * x.entry t j =
            (∑ c ∈ Finset.range A.cols, B.entry i c * A.entry t c) * x.entry t j :=
        fun t _ => by
          rw [hMent]
          congr 1
          exact Finset.sum_congr rfl fun c _ => by ring
      rw [Finset.sum_congr rfl hstep, sum_mul_swap, ← hra, ← hcols]
      congr 1
      refine Finset.sum_congr rfl fun c _ => ?_
      congr 1
      rw [Mat.gemm_entry]
      simp
    · -- trans = 'C'
      have hg : (r.gemv 'C' α x β y).1 =
          y.gemm 'N' 'N' α (B.copy.conjugate)
            ((Mat.zeros A.cols x.cols).gemm 'C' 'N' 1 A x 0) β := by
        simp [RkM.gemv, hk, ha, hb]
      have hlhs : ∀ i j, ((r.gemv 'C' α x β y).1).entry i j =
          β * y.entry i j + α * ∑ c ∈ Finset.range A.cols,
            star (B.entry i c) *
              ∑ d ∈ Finset.range A.rows, star (A.entry d c) * x.entry d j := by
        intro i j
        rw [hg, Mat.gemm_entry]
        congr 1
        simp only [Mat.copy_eq, Mat.opCols_N, Mat.opE_N, Mat.conjugate_cols,
          Mat.conjugate_entry]
        rw [← hcols]
        congr 1
        refine Finset.sum_congr rfl fun c _ => ?_
        congr 1
        rw [Mat.gemm_entry]
        simp
      have hsum : ∀ i j,
          ∑ t ∈ Finset.range r.rows.size, star (r.evalM.entry t i) * x.entry t j =
          ∑ c ∈ Finset.range A.cols, star (B.entry i c) *
              ∑ d ∈ Finset.range A.rows, star (A.entry d c) * x.entry d j := by
        intro i j
        have hterm : ∀ t ∈ Finset.range r.rows.size,
            star (r.evalM.entry t i) * x.entry t j =
              (∑ c ∈ Finset.range A.cols,
                star (B.entry i c) * star (A.entry t c)) * x.entry t j := by
          intro t _
          rw [hMent, star_sum]
          congr 1
          refine Finset.sum_congr rfl fun c _ => ?_
          rw [star_mul']
          ring
        rw [Finset.sum_congr rfl hterm, sum_mul_swap, hra]
      refine ⟨?_, by simp [RkM.gemv, hk, ha, hb], fun h0 => absurd h0 hk, ?_⟩
      · refine ⟨by rw [hg]; rfl, by rw [hg]; rfl, fun i _ j _ => ?_⟩
        rw [hlhs]
        simp only [Mat.add_entry, Mat.scale_entry, Mat.matmul_entry, Mat.opMat_C,
          Mat.ctransp_cols, Mat.ctransp_entry]
        rw [evalM_rows, hsum]
      · intro _ A0 B0 ha0 hb0
        rw [ha] at ha0
        rw [hb] at hb0
        cases ha0
        cases hb0
        refine ⟨by rw [hg]; rfl, by rw [hg]; rfl, fun i _ j _ => ?_⟩
        rw [hlhs]
        simp only [Mat.add_entry, Mat.scale_entry, Mat.matmul_entry, Mat.matmul_cols,
          Mat.ctransp_cols, Mat.ctransp_entry, Mat.conjugate_entry, Mat.conjugate_cols]
        congr 1
        rw [sum_mul_swap B.cols A.rows (fun c => star (B.entry i c))
          (fun t c => star (A.entry t c)) (fun t => x.entry t j), ← hcols]


/-- Witness for C5 at `op = 'C'` on a concrete rational 2×2 rank-1 block. -/
theorem C5_gemv_spec_witness :
    (('C' : Char) = 'N' ∨ ('C' : Char) = 'T' ∨ ('C' : Char) = 'C') ∧ wRk.Inv ∧
    (MatEq ((wRk.gemv 'C' 2 wX 3 wY).1)
        ((wY.scale 3).add (((Mat.opMat 'C' wRk.evalM).matmul wX).scale 2)) ∧
     (wRk.gemv 'C' 2 wX 3 wY).2 = wRk ∧
     (wRk.rank = 0 → MatEq ((wRk.gemv 'C' 2 wX 3 wY).1) (wY.scale 3) ∧
       ((3 : ℚ) = 1 → (wRk.gemv 'C' 2 wX 3 wY).1 = wY)) ∧
     (('C' : Char) = 'C' → ∀ A B : Mat ℚ, wRk.a = some A → wRk.b = some B →
       MatEq ((wRk.gemv 'C' 2 wX 3 wY).1)
         ((wY.scale 3).add ((((B.conjugate).matmul A.ctransp).matmul wX).scale 2)))) :=
  ⟨Or.inr (Or.inr rfl),
   Or.inr ⟨wA, wB, rfl, rfl, rfl, le_refl 1, rfl, rfl⟩,
   C5_gemv_spec wRk 'C' 2 3 wX wY (Or.inr (Or.inr rfl))
     (Or.inr ⟨wA, wB, rfl, rfl, rfl, le_refl 1, rfl, rfl⟩)⟩

/-! ### C3: `multiplyRkRk`, default (OLD) policy -/

@[simp] lemma csel_false [CommRing R] [StarRing R] (x : R) : csel false x = x := rfl

@[simp] lemma csel_true [CommRing R] [StarRing R] (x : R) : csel true x = star x := rfl

lemma multiplyRkRk_some [CommRing R] [StarRing R] [Algebra ℚ R] (ker : Kernels R)
    (ctl : RkApproximationControl) (l2 newRKRK : Bool) (trans1 trans2 : Char)
    (r1 r2 : RkM R) (a1 b1 a2 b2 : Mat R)
    (h1 : (if trans1 = 'N' then r1.a else r1.b) = some a1)
    (h2 : (if trans1 = 'N' then r1.b else r1.a) = some b1)
    (h3 : (if trans2 = 'N' then r2.a else r2.b) = some a2)
    (h4 : (if trans2 = 'N' then r2.b else r2.a) = some b2) :
    multiplyRkRk ker ctl l2 newRKRK trans1 trans2 r1 r2 =
      (let tmp := rkrkMid trans1 trans2 r1.rank r2.rank b1 a2
       let panels : Option (Mat R × Mat R) :=
         if newRKRK then rkrkNewPanels ker ctl l2 trans1 trans2 a1 b2 tmp
         else some (rkrkOldPanels trans1 trans2 r1.rank r2.rank a1 b2 tmp)
       some ⟨(if trans1 = 'N' then r1.rows else r1.cols),
             (if trans2 = 'N' then r2.cols else r2.rows),
             panels.map Prod.fst, panels.map Prod.snd,
             min r1.method r2.method⟩) := by
  unfold multiplyRkRk
  rw [h1, h2, h3, h4]

lemma tripleL [CommRing R] (n K1 K2 : Nat) (f1 : Nat → R) (g1 : Nat → Nat → R)
    (f2 : Nat → Nat → R) (g2 : Nat → R) :
    ∑ c ∈ Finset.range K1, f1 c *
        ∑ d ∈ Finset.range K2, g2 d * ∑ t ∈ Finset.range n, g1 t c * f2 t d =
      ∑ t ∈ Finset.range n, (∑ c ∈ Finset.range K1, f1 c * g1 t c) *
        ∑ d ∈ Finset.range K2, f2 t d * g2 d := by
  have h1 : ∀ c, f1 c *
      ∑ d ∈ Finset.range K2, g2 d * ∑ t ∈ Finset.range n, g1 t c * f2 t d =
      ∑ t ∈ Finset.range n, ∑ d ∈ Finset.range K2, f1 c * g1 t c * (f2 t d * g2 d) := by
    intro c
    rw [Finset.mul_sum]
    have hd : ∀ d, f1 c * (g2 d * ∑ t ∈ Finset.range n, g1 t c * f2 t d) =
        ∑ t ∈ Finset.range n, f1 c * g1 t c * (f2 t d * g2 d) := by
      intro d
      rw [Finset.mul_sum, Finset.mul_sum]
      exact Finset.sum_congr rfl fun t _ => by ring
    rw [Finset.sum_congr rfl fun d _ => hd d]
    exact Finset.sum_comm
  rw [Finset.sum_congr rfl fun c _ => h1 c, Finset.sum_comm]
  refine Finset.sum_congr rfl fun t _ => ?_
  rw [Finset.sum_mul]
  exact Finset.sum_congr rfl fun c _ => by rw [Finset.mul_sum]

lemma tripleR [CommRing R] (n K1 K2 : Nat) (f1 : Nat → R) (g1 : Nat → Nat → R)
    (f2 : Nat → Nat → R) (g2 : Nat → R) :
    ∑ d ∈ Finset.range K2,
        (∑ c ∈ Finset.range K1, f1 c * ∑ t ∈ Finset.range n, g1 t c * f2 t d) * g2 d =
      ∑ t ∈ Finset.range n, (∑ c ∈ Finset.range K1, f1 c * g1 t c) *
        ∑ d ∈ Finset.range K2, f2 t d * g2 d := by
  have h1 : ∀ d, (∑ c ∈ Finset.range K1, f1 c * ∑ t ∈ Finset.range n, g1 t c * f2 t d) * g2 d =
      ∑ t ∈ Finset.range n, ∑ c ∈ Finset.range K1, f1 c * g1 t c * (f2 t d * g2 d) := by
    intro d
    rw [Finset.sum_mul]
    have hc : ∀ c, f1 c * (∑ t ∈ Finset.range n, g1 t c * f2 t d) * g2 d =
        ∑ t ∈ Finset.range n, f1 c * g1 t c * (f2 t d * g2 d) := by
      intro c
      rw [Finset.mul_sum, Finset.sum_mul]
      exact Finset.sum_congr rfl fun t _ => by ring
    rw [Finset.sum_congr rfl fun c _ => hc c]
    exact Finset.sum_comm
  rw [Finset.sum_congr rfl fun d _ => h1 d, Finset.sum_comm]
  refine Finset.sum_congr rfl fun t _ => ?_
  rw [Finset.sum_comm, Finset.sum_mul]
  exact Finset.sum_congr rfl fun c _ => by rw [Finset.mul_sum]

lemma op_pair_entry [CommRing R] [StarRing R] (tr : Char)
    (htr : tr = 'N' ∨ tr = 'T' ∨ tr = 'C') (r : RkM R) (A B : Mat R)
    (ha : r.a = some A) (hb : r.b = some B) (hc : A.cols = B.cols)
    (hk : A.cols ≠ 0) (p q : Nat) :
    (Mat.opMat tr r.evalM).entry p q =
      ∑ c ∈ Finset.range (if tr = 'N' then A else B).cols,
        csel (tr == 'C') ((if tr = 'N' then A else B).entry p c) *
          csel (tr == 'C') ((if tr = 'N' then B else A).entry q c) := by
  rcases htr with rfl | rfl | rfl
  · simp only [Mat.opMat_N]
    rw [evalM_entry r A B ha hb hk]
    simp only [if_true, show ((('N' : Char) == 'C')) = false from rfl, csel_false]
  · simp only [Mat.opMat_T, Mat.transp_entry]
    rw [evalM_entry r A B ha hb hk]
    have hne : ¬(('T' : Char) = 'N') := by decide
    rw [if_neg hne, if_neg hne]
    simp only [show ((('T' : Char) == 'C')) = false from rfl, csel_false]
    rw [← hc]
    exact Finset.sum_congr rfl fun c _ => by ring
  · simp only [Mat.opMat_C, Mat.ctransp_entry]
    rw [evalM_entry r A B ha hb hk]
    have hne : ¬(('C' : Char) = 'N') := by decide
    rw [if_neg hne, if_neg hne, star_sum]
    simp only [show ((('C' : Char) == 'C')) = true from rfl, csel_true]
    rw [← hc]
    refine Finset.sum_congr rfl fun c _ => ?_
    rw [star_mul']
    ring

lemma op_pair_cols [CommRing R] [StarRing R] (tr : Char)
    (htr : tr = 'N' ∨ tr = 'T' ∨ tr = 'C') (r : RkM R) (A B : Mat R)
    (hra : A.rows = r.rows.size) (hrb : B.rows = r.cols.size) :
    (Mat.opMat tr r.evalM).cols = (if tr = 'N' then B else A).rows := by
  rcases htr with rfl | rfl | rfl
  · simp only [Mat.opMat_N]
    rw [evalM_cols]
    simp only [if_true]
    exact hrb.symm
  · simp only [Mat.opMat_T, Mat.transp_cols]
    rw [evalM_rows, if_neg (by decide)]
    exact hra.symm
  · simp only [Mat.opMat_C, Mat.ctransp_cols]
    rw [evalM_rows, if_neg (by decide)]
    exact hra.symm

lemma rkrkMid_entry [CommRing R] [StarRing R] (tr1 tr2 : Char) (k1 k2 : Nat)
    (b1 a2 : Mat R) (c d : Nat) :
    (rkrkMid tr1 tr2 k1 k2 b1 a2).entry c d =
      ∑ t ∈ Finset.range b1.rows,
        csel (tr1 == 'C') (b1.entry t c) * csel (tr2 == 'C') (a2.entry t d) := by
  unfold rkrkMid
  by_cases h1 : tr1 = 'C' <;> by_cases h2 : tr2 = 'C'
  · subst h1; subst h2
    rw [if_pos ⟨rfl, rfl⟩]
    simp only [Mat.conjugate_entry, Mat.gemm_entry, Mat.opCols_T, Mat.opE_T,
      Mat.opE_N, Mat.zeros_entry, mul_zero, zero_add, one_mul,
      show (('C' : Char) == 'C') = true from rfl, csel_true]
    rw [star_sum]
    exact Finset.sum_congr rfl fun t _ => star_mul' _ _
  · subst h1
    rw [if_neg (fun hc => h2 hc.2), if_pos rfl]
    simp only [Mat.gemm_entry, Mat.opCols_C, Mat.opE_C, Mat.opE_N, Mat.zeros_entry,
      mul_zero, zero_add, one_mul, show (('C' : Char) == 'C') = true from rfl, csel_true,
      show (tr2 == 'C') = false from beq_eq_false_iff_ne.mpr h2, csel_false]
  · subst h2
    rw [if_neg (fun hc => h1 hc.1), if_neg h1, if_pos rfl]
    simp only [Mat.conjugate_entry, Mat.gemm_entry, Mat.opCols_C, Mat.opE_C,
      Mat.opE_N, Mat.zeros_entry, mul_zero, zero_add, one_mul,
      show (('C' : Char) == 'C') = true from rfl, csel_true,
      show (tr1 == 'C') = false from beq_eq_false_iff_ne.mpr h1, csel_false]
    rw [star_sum]
    refine Finset.sum_congr rfl fun t _ => ?_
    rw [star_mul', star_star]
  · rw [if_neg (fun hc => h1 hc.1), if_neg h1, if_neg h2]
    simp only [Mat.gemm_entry, Mat.opCols_T, Mat.opE_T, Mat.opE_N, Mat.zeros_entry,
      mul_zero, zero_add, one_mul,
      show (tr1 == 'C') = false from beq_eq_false_iff_ne.mpr h1,
      show (tr2 == 'C') = false from beq_eq_false_iff_ne.mpr h2, csel_false]

lemma oldLt_fst [CommRing R] [StarRing R] (tr1 tr2 : Char) (k1 k2 : Nat)
    (a1 b2 tmp : Mat R) (hlt : k1 < k2) :
    ((rkrkOldPanels tr1 tr2 k1 k2 a1 b2 tmp).1).cols = a1.cols ∧
    ∀ i c, ((rkrkOldPanels tr1 tr2 k1 k2 a1 b2 tmp).1).entry i c =
      csel (tr1 == 'C') (a1.entry i c) := by
  unfold rkrkOldPanels
  rw [if_pos hlt]
  by_cases h : tr1 = 'C'
  · subst h
    simp [show (('C' : Char) == 'C') = true from rfl]
  · rw [if_neg h]
    simp [show (tr1 == 'C') = false from beq_eq_false_iff_ne.mpr h]

lemma oldLt_snd [CommRing R] [StarRing R] (tr1 tr2 : Char) (k1 k2 : Nat)
    (a1 b2 tmp : Mat R) (hlt : k1 < k2) :
    ∀ j c, ((rkrkOldPanels tr1 tr2 k1 k2 a1 b2 tmp).2).entry j c =
      ∑ d ∈ Finset.range b2.cols, csel (tr2 == 'C') (b2.entry j d) * tmp.entry c d := by
  unfold rkrkOldPanels
  rw [if_pos hlt]
  intro j c
  by_cases h : tr2 = 'C'
  · subst h
    simp only [if_true, Mat.conjugate_entry, Mat.gemm_entry, Mat.opCols_N,
      Mat.opE_N, Mat.opE_C, Mat.zeros_entry, mul_zero, zero_add, one_mul,
      show (('C' : Char) == 'C') = true from rfl, csel_true]
    rw [star_sum]
    refine Finset.sum_congr rfl fun d _ => ?_
    rw [star_mul', star_star]
  · rw [if_neg h]
    simp only [Mat.gemm_entry, Mat.opCols_N, Mat.opE_N, Mat.opE_T, Mat.zeros_entry,
      mul_zero, zero_add, one_mul,
      show (tr2 == 'C') = false from beq_eq_false_iff_ne.mpr h, csel_false]

lemma oldGe_fst [CommRing R] [StarRing R] (tr1 tr2 : Char) (k1 k2 : Nat)
    (a1 b2 tmp : Mat R) (hge : ¬ k1 < k2) :
    ((rkrkOldPanels tr1 tr2 k1 k2 a1 b2 tmp).1).cols = k2 ∧
    ∀ i d, ((rkrkOldPanels tr1 tr2 k1 k2 a1 b2 tmp).1).entry i d =
      ∑ c ∈ Finset.range a1.cols, csel (tr1 == 'C') (a1.entry i c) * tmp.entry c d := by
  unfold rkrkOldPanels
  rw [if_neg hge]
  by_cases h : tr1 = 'C'
  · subst h
    refine ⟨by simp, fun i d => ?_⟩
    simp only [if_true, Mat.conjugate_entry, Mat.gemm_entry, Mat.opCols_N,
      Mat.opE_N, Mat.zeros_entry, mul_zero, zero_add, one_mul,
      show (('C' : Char) == 'C') = true from rfl, csel_true]
    rw [star_sum]
    refine Finset.sum_congr rfl fun c _ => ?_
    rw [star_mul', star_star]
  · simp only [if_neg h]
    refine ⟨by simp, fun i d => ?_⟩
    simp only [Mat.gemm_entry, Mat.opCols_N, Mat.opE_N, Mat.zeros_entry, mul_zero,
      zero_add, one_mul,
      show (tr1 == 'C') = false from beq_eq_false_iff_ne.mpr h, csel_false]

lemma oldGe_snd [CommRing R] [StarRing R] (tr1 tr2 : Char) (k1 k2 : Nat)
    (a1 b2 tmp : Mat R) (hge : ¬ k1 < k2) :
    ∀ j d, ((rkrkOldPanels tr1 tr2 k1 k2 a1 b2 tmp).2).entry j d =
      csel (tr2 == 'C') (b2.entry j d) := by
  unfold rkrkOldPanels
  rw [if_neg hge]
  intro j d
  by_cases h : tr2 = 'C'
  · subst h
    simp [show (('C' : Char) == 'C') = true from rfl]
  · rw [if_neg h]
    simp [show (tr2 == 'C') = false from beq_eq_false_iff_ne.mpr h]

lemma oldPanels_fst_cols [CommRing R] [StarRing R] (tr1 tr2 : Char) (k1 k2 : Nat)
    (a1 b2 tmp : Mat R) (hac1 : a1.cols = k1) :
    ((rkrkOldPanels tr1 tr2 k1 k2 a1 b2 tmp).1).cols = min k1 k2 := by
  by_cases hlt : k1 < k2
  · rw [(oldLt_fst tr1 tr2 k1 k2 a1 b2 tmp hlt).1, hac1, Nat.min_eq_left (le_of_lt hlt)]
  · rw [(oldGe_fst tr1 tr2 k1 k2 a1 b2 tmp hlt).1]
    rw [Nat.min_eq_right (le_of_not_lt hlt)]

lemma rkrkOld_value [CommRing R] [StarRing R] (tr1 tr2 : Char) (k1 k2 : Nat)
    (a1 b1 a2 b2 : Mat R) (hac1 : a1.cols = k1) (hbc1 : b1.cols = k1)
    (hac2 : a2.cols = k2) (hbc2 : b2.cols = k2) (i j : Nat) :
    ∑ c ∈ Finset.range
        ((rkrkOldPanels tr1 tr2 k1 k2 a1 b2 (rkrkMid tr1 tr2 k1 k2 b1 a2)).1).cols,
        ((rkrkOldPanels tr1 tr2 k1 k2 a1 b2 (rkrkMid tr1 tr2 k1 k2 b1 a2)).1).entry i c *
          ((rkrkOldPanels tr1 tr2 k1 k2 a1 b2 (rkrkMid tr1 tr2 k1 k2 b1 a2)).2).entry j c =
      ∑ t ∈ Finset.range b1.rows,
        (∑ c ∈ Finset.range a1.cols,
          csel (tr1 == 'C') (a1.entry i c) * csel (tr1 == 'C') (b1.entry t c)) *
        ∑ d ∈ Finset.range a2.cols,
          csel (tr2 == 'C') (a2.entry t d) * csel (tr2 == 'C') (b2.entry j d) := by
  by_cases hlt : k1 < k2
  · rw [(oldLt_fst tr1 tr2 k1 k2 a1 b2 _ hlt).1]
    have hstep : ∀ c ∈ Finset.range a1.cols,
        ((rkrkOldPanels tr1 tr2 k1 k2 a1 b2 (rkrkMid tr1 tr2 k1 k2 b1 a2)).1).entry i c *
          ((rkrkOldPanels tr1 tr2 k1 k2 a1 b2 (rkrkMid tr1 tr2 k1 k2 b1 a2)).2).entry j c =
        csel (tr1 == 'C') (a1.entry i c) *
          ∑ d ∈ Finset.range b2.cols, csel (tr2 == 'C') (b2.entry j d) *
            ∑ t ∈ Finset.range b1.rows,
              csel (tr1 == 'C') (b1.entry t c) * csel (tr2 == 'C') (a2.entry t d) := by
      intro c _
      rw [(oldLt_fst tr1 tr2 k1 k2 a1 b2 _ hlt).2 i c, oldLt_snd tr1 tr2 k1 k2 a1 b2 _ hlt j c]
      congr 1
      exact Finset.sum_congr rfl fun d _ => by rw [rkrkMid_entry]
    rw [Finset.sum_congr rfl hstep]
    rw [tripleL b1.rows a1.cols b2.cols (fun c => csel (tr1 == 'C') (a1.entry i c))
      (fun t c => csel (tr1 == 'C') (b1.entry t c))
      (fun t d => csel (tr2 == 'C') (a2.entry t d))
      (fun d => csel (tr2 == 'C') (b2.entry j d))]
    rw [show b2.cols = a2.cols from by rw [hac2, hbc2]]
  · rw [(oldGe_fst tr1 tr2 k1 k2 a1 b2 _ hlt).1]
    have hstep : ∀ d ∈ Finset.range k2,
        ((rkrkOldPanels tr1 tr2 k1 k2 a1 b2 (rkrkMid tr1 tr2 k1 k2 b1 a2)).1).entry i d *
          ((rkrkOldPanels tr1 tr2 k1 k2 a1 b2 (rkrkMid tr1 tr2 k1 k2 b1 a2)).2).entry j d =
        (∑ c ∈ Finset.range a1.cols, csel (tr1 == 'C') (a1.entry i c) *
            ∑ t ∈ Finset.range b1.rows,
              csel (tr1 == 'C') (b1.entry t c) * csel (tr2 == 'C') (a2.entry t d)) *
          csel (tr2 == 'C') (b2.entry j d) := by
      intro d _
      rw [(oldGe_fst tr1 tr2 k1 k2 a1 b2 _ hlt).2 i d, oldGe_snd tr1 tr2 k1 k2 a1 b2 _ hlt j d]
      congr 1
      exact Finset.sum_congr rfl fun c _ => by rw [rkrkMid_entry]
    rw [Finset.sum_congr rfl hstep]
    rw [tripleR b1.rows a1.cols k2 (fun c => csel (tr1 == 'C') (a1.entry i c))
      (fun t c => csel (tr1 == 'C') (b1.entry t c))
      (fun t d => csel (tr2 == 'C') (a2.entry t d))
      (fun d => csel (tr2 == 'C') (b2.entry j d))]
    rw [show k2 = a2.cols from hac2.symm]

lemma op_rows_size [CommRing R] [StarRing R] (tr : Char) (r : RkM R) :
    (Mat.opMat tr r.evalM).rows = (if tr = 'N' then r.rows else r.cols).size := by
  by_cases h1 : tr = 'N'
  · subst h1; simp [evalM_rows]
  · by_cases h2 : tr = 'T'
    · subst h2
      simp only [Mat.opMat_T, Mat.transp_rows]
      rw [evalM_cols, if_neg h1]
    · unfold Mat.opMat
      rw [if_neg h1, if_neg h2]
      simp only [Mat.ctransp_rows]
      rw [evalM_cols, if_neg h1]

lemma op_cols_size [CommRing R] [StarRing R] (tr : Char) (r : RkM R) :
    (Mat.opMat tr r.evalM).cols = (if tr = 'N' then r.cols else r.rows).size := by
  by_cases h1 : tr = 'N'
  · subst h1; simp [evalM_cols]
  · by_cases h2 : tr = 'T'
    · subst h2
      simp only [Mat.opMat_T, Mat.transp_cols]
      rw [evalM_rows, if_neg h1]
    · unfold Mat.opMat
      rw [if_neg h1, if_neg h2]
      simp only [Mat.ctransp_cols]
      rw [evalM_rows, if_neg h1]

/-- Claim C3: with `HMAT_NEW_RKRK` unset, for non-empty operands and any
`(trans1, trans2) ∈ {N,T,C}²`, `multiplyRkRk` returns an Rk of rank exactly
`min(rank r1, rank r2)` whose dense value is exactly
`op1(M(r1)) · op2(M(r2))`, with the method tag the minimum of the operands'
tags and the index sets from the non-contracted sides. -/
theorem C3_multiplyRkRk_spec [CommRing R] [StarRing R] [Algebra ℚ R]
    (ker : Kernels R) (ctl : RkApproximationControl) (l2 : Bool)
    (trans1 trans2 : Char) (r1 r2 : RkM R)
    (htr1 : trans1 = 'N' ∨ trans1 = 'T' ∨ trans1 = 'C')
    (htr2 : trans2 = 'N' ∨ trans2 = 'T' ∨ trans2 = 'C')
    (hinv1 : r1.Inv) (hinv2 : r2.Inv) (hk1 : r1.rank ≠ 0) (hk2 : r2.rank ≠ 0) :
    ∃ res, multiplyRkRk ker ctl l2 false trans1 trans2 r1 r2 = some res ∧
      res.rank = min r1.rank r2.rank ∧
      MatEq res.evalM ((Mat.opMat trans1 r1.evalM).matmul (Mat.opMat trans2 r2.evalM)) ∧
      res.method = min r1.method r2.method ∧
      res.rows = (if trans1 = 'N' then r1.rows else r1.cols) ∧
      res.cols = (if trans2 = 'N' then r2.cols else r2.rows) := by
  rcases hinv1 with ⟨hn1, _⟩ | ⟨A1, B1, ha1, hb1, hc1, hk1le, hra1, hrb1⟩
  · exact absurd (by simp [RkM.rank, hn1]) hk1
  rcases hinv2 with ⟨hn2, _⟩ | ⟨A2, B2, ha2, hb2, hc2, hk2le, hra2, hrb2⟩
  · exact absurd (by simp [RkM.rank, hn2]) hk2
  have hrk1 : r1.rank = A1.cols := by simp [RkM.rank, ha1]
  have hrk2 : r2.rank = A2.cols := by simp [RkM.rank, ha2]
  have hA1k : A1.cols ≠ 0 := by omega
  have hA2k : A2.cols ≠ 0 := by omega
  set a1 : Mat R := if trans1 = 'N' then A1 else B1 with ha1d
  set b1 : Mat R := if trans1 = 'N' then B1 else A1 with hb1d
  set a2 : Mat R := if trans2 = 'N' then A2 else B2 with ha2d
  set b2 : Mat R := if trans2 = 'N' then B2 else A2 with hb2d
  have h1 : (if trans1 = 'N' then r1.a else r1.b) = some a1 := by
    rw [ha1d]; by_cases h : trans1 = 'N' <;> simp [h, ha1, hb1]
  have h2 : (if trans1 = 'N' then r1.b else r1.a) = some b1 := by
    rw [hb1d]; by_cases h : trans1 = 'N' <;> simp [h, ha1, hb1]
  have h3 : (if trans2 = 'N' then r2.a else r2.b) = some a2 := by
    rw [ha2d]; by_cases h : trans2 = 'N' <;> simp [h, ha2, hb2]
  have h4 : (if trans2 = 'N' then r2.b else r2.a) = some b2 := by
    rw [hb2d]; by_cases h : trans2 = 'N' <;> simp [h, ha2, hb2]
  have hac1 : a1.cols = r1.rank := by
    rw [ha1d, hrk1]; by_cases h : trans1 = 'N' <;> simp [h, hc1]
  have hbc1 : b1.cols = r1.rank := by
    rw [hb1d, hrk1]; by_cases h : trans1 = 'N' <;> simp [h, hc1]
  have hac2 : a2.cols = r2.rank := by
    rw [ha2d, hrk2]; by_cases h : trans2 = 'N' <;> simp [h, hc2]
  have hbc2 : b2.cols = r2.rank := by
    rw [hb2d, hrk2]; by_cases h : trans2 = 'N' <;> simp [h, hc2]
  set tmpM := rkrkMid trans1 trans2 r1.rank r2.rank b1 a2 with htmpd
  set pans := rkrkOldPanels trans1 trans2 r1.rank r2.rank a1 b2 tmpM with hpansd
  have hfcols : pans.1.cols = min r1.rank r2.rank := by
    rw [hpansd, htmpd]
    exact oldPanels_fst_cols trans1 trans2 r1.rank r2.rank a1 b2 _ hac1
  have hfstk : pans.1.cols ≠ 0 := by
    rw [hfcols]
    rcases Nat.le_total r1.rank r2.rank with h | h
    · rw [Nat.min_eq_left h]; exact hk1
    · rw [Nat.min_eq_right h]; exact hk2
  refine ⟨⟨if trans1 = 'N' then r1.rows else r1.cols,
      if trans2 = 'N' then r2.cols else r2.rows,
      some pans.1, some pans.2, min r1.method r2.method⟩, ?_, ?_, ?_, rfl, rfl, rfl⟩
  · rw [multiplyRkRk_some ker ctl l2 false trans1 trans2 r1 r2 a1 b1 a2 b2 h1 h2 h3 h4]
    rfl
  · show pans.1.cols = min r1.rank r2.rank
    exact hfcols
  · refine ⟨?_, ?_, ?_⟩
    · rw [evalM_rows, Mat.matmul_rows, op_rows_size]
    · rw [evalM_cols, Mat.matmul_cols, op_cols_size]
    · intro i _ j _
      rw [evalM_entry _ pans.1 pans.2 rfl rfl hfstk i j]
      rw [hpansd, htmpd]
      rw [rkrkOld_value trans1 trans2 r1.rank r2.rank a1 b1 a2 b2 hac1 hbc1 hac2 hbc2 i j]
      rw [Mat.matmul_entry]
      rw [op_pair_cols trans1 htr1 r1 A1 B1 hra1 hrb1]
      rw [← hb1d]
      refine Finset.sum_congr rfl fun t _ => ?_
      rw [op_pair_entry trans1 htr1 r1 A1 B1 ha1 hb1 hc1 hA1k i t,
          op_pair_entry trans2 htr2 r2 A2 B2 ha2 hb2 hc2 hA2k t j]

/-- Witness for C3 at `(trans1, trans2) = ('N', 'T')` on concrete rational
rank-1 blocks. -/
theorem C3_multiplyRkRk_spec_witness :
    (('N' : Char) = 'N' ∨ ('N' : Char) = 'T' ∨ ('N' : Char) = 'C') ∧
    (('T' : Char) = 'N' ∨ ('T' : Char) = 'T' ∨ ('T' : Char) = 'C') ∧
    wRk.Inv ∧ wRk2.Inv ∧ wRk.rank ≠ 0 ∧ wRk2.rank ≠ 0 ∧
    (∃ res, multiplyRkRk wKer ⟨0, 1⟩ false false 'N' 'T' wRk wRk2 = some res ∧
      res.rank = min wRk.rank wRk2.rank ∧
      MatEq res.evalM ((Mat.opMat 'N' wRk.evalM).matmul (Mat.opMat 'T' wRk2.evalM)) ∧
      res.method = min wRk.method wRk2.method ∧
      res.rows = (if ('N' : Char) = 'N' then wRk.rows else wRk.cols) ∧
      res.cols = (if ('T' : Char) = 'N' then wRk2.cols else wRk2.rows)) :=
  ⟨Or.inl rfl, Or.inr (Or.inl rfl),
   Or.inr ⟨wA, wB, rfl, rfl, rfl, le_refl 1, rfl, rfl⟩,
   Or.inr ⟨wA2, wB2, rfl, rfl, rfl, le_refl 1, rfl, rfl⟩,
   by decide, by decide,
   C3_multiplyRkRk_spec wKer ⟨0, 1⟩ false 'N' 'T' wRk wRk2 (Or.inl rfl)
     (Or.inr (Or.inl rfl))
     (Or.inr ⟨wA, wB, rfl, rfl, rfl, le_refl 1, rfl, rfl⟩)
     (Or.inr ⟨wA2, wB2, rfl, rfl, rfl, le_refl 1, rfl, rfl⟩) (by decide) (by decide)⟩

/-! ### C8: method tag of the mixed products -/

/-- Claim C8, corrected: for the four mixed products the method tag of the
result equals the method of the Rk operand whenever the Rk operand has
nonzero rank — and `multiplyHRk` inherits it for rank 0 as well — but
`multiplyRkFull` on a rank-0 operand returns `NoCompression` instead (see the
counterexample), and `multiplyFullRk`/`multiplyRkH` dereference the absent
panels on a rank-0 operand (modelled as `none`). -/
theorem C8_mixed_method_spec [CommRing R] [StarRing R] (transR transM transH : Char)
    (rk : RkM R) (m : FullM R) (h : HM R) (hinv : rk.Inv) :
    (rk.rank ≠ 0 → (multiplyRkFull transR transM rk m).map RkM.method = some rk.method) ∧
    (rk.rank = 0 → (multiplyRkFull transR transM rk m).map RkM.method = some NoCompression) ∧
    (rk.rank ≠ 0 → (multiplyFullRk transM transR m rk).map RkM.method = some rk.method) ∧
    (rk.rank = 0 → multiplyFullRk transM transR m rk = none) ∧
    (rk.rank ≠ 0 → (multiplyRkH transR transH rk h).map RkM.method = some rk.method) ∧
    (rk.rank = 0 → multiplyRkH transR transH rk h = none) ∧
    (multiplyHRk transH transR h rk).map RkM.method = some rk.method := by
  rcases hinv with ⟨hna, hnb⟩ | ⟨A, B, ha, hb, hc, hkle, hra, hrb⟩
  · -- empty block
    have hk : rk.rank = 0 := by simp [RkM.rank, hna]
    have hsel1 : (if transR = 'N' then rk.a else rk.b) = none := by
      by_cases hh : transR = 'N' <;> simp [hh, hna, hnb]
    have hsel2 : (if transR = 'N' then rk.b else rk.a) = none := by
      by_cases hh : transR = 'N' <;> simp [hh, hna, hnb]
    refine ⟨fun hne => absurd hk hne, fun _ => ?_, fun hne => absurd hk hne, fun _ => ?_,
      fun hne => absurd hk hne, fun _ => ?_, ?_⟩
    · unfold multiplyRkFull
      rw [if_pos hk]
      rfl
    · unfold multiplyFullRk
      rw [hsel1]
    · unfold multiplyRkH
      rw [hsel1]
    · unfold multiplyHRk
      rw [if_pos hk]
      rfl
  · -- nonzero rank
    have hk : rk.rank ≠ 0 := by
      have : rk.rank = A.cols := by simp [RkM.rank, ha]
      omega
    have hsel1 : (if transR = 'N' then rk.a else rk.b) =
        some (if transR = 'N' then A else B) := by
      by_cases hh : transR = 'N' <;> simp [hh, ha, hb]
    have hsel2 : (if transR = 'N' then rk.b else rk.a) =
        some (if transR = 'N' then B else A) := by
      by_cases hh : transR = 'N' <;> simp [hh, ha, hb]
    refine ⟨fun _ => ?_, fun h0 => absurd h0 hk, fun _ => ?_, fun h0 => absurd h0 hk,
      fun _ => ?_, fun h0 => absurd h0 hk, ?_⟩
    · unfold multiplyRkFull
      rw [if_neg hk, hsel1, hsel2]
      rfl
    · unfold multiplyFullRk
      rw [hsel1, hsel2]
      rfl
    · unfold multiplyRkH
      rw [hsel1, hsel2]
      rfl
    · unfold multiplyHRk
      rw [if_neg hk, hsel1, hsel2]
      rfl

/-- Witness for C8 on a concrete rank-1 block, a dense block and an H-operand. -/
theorem C8_mixed_method_spec_witness :
    wRk.Inv ∧
    ((wRk.rank ≠ 0 → (multiplyRkFull 'T' 'C' wRk ⟨⟨0, 2⟩, ⟨0, 2⟩, Mat.zeros 2 2⟩).map
        RkM.method = some wRk.method) ∧
     (wRk.rank = 0 → (multiplyRkFull 'T' 'C' wRk ⟨⟨0, 2⟩, ⟨0, 2⟩, Mat.zeros 2 2⟩).map
        RkM.method = some NoCompression) ∧
     (wRk.rank ≠ 0 → (multiplyFullRk 'C' 'T' ⟨⟨0, 2⟩, ⟨0, 2⟩, Mat.zeros 2 2⟩ wRk).map
        RkM.method = some wRk.method) ∧
     (wRk.rank = 0 → multiplyFullRk 'C' 'T' ⟨⟨0, 2⟩, ⟨0, 2⟩, Mat.zeros 2 2⟩ wRk = none) ∧
     (wRk.rank ≠ 0 → (multiplyRkH 'T' 'C' wRk ⟨⟨0, 2⟩, ⟨0, 2⟩, Mat.zeros 2 2⟩).map
        RkM.method = some wRk.method) ∧
     (wRk.rank = 0 → multiplyRkH 'T' 'C' wRk ⟨⟨0, 2⟩, ⟨0, 2⟩, Mat.zeros 2 2⟩ = none) ∧
     (multiplyHRk 'C' 'T' ⟨⟨0, 2⟩, ⟨0, 2⟩, Mat.zeros 2 2⟩ wRk).map RkM.method =
        some wRk.method) :=
  ⟨Or.inr ⟨wA, wB, rfl, rfl, rfl, le_refl 1, rfl, rfl⟩,
   C8_mixed_method_spec 'T' 'C' 'C' wRk ⟨⟨0, 2⟩, ⟨0, 2⟩, Mat.zeros 2 2⟩
     ⟨⟨0, 2⟩, ⟨0, 2⟩, Mat.zeros 2 2⟩ (Or.inr ⟨wA, wB, rfl, rfl, rfl, le_refl 1, rfl, rfl⟩)⟩

/-- Counterexample to C8 as stated: `multiplyRkFull` on a rank-0 Rk operand
whose method tag is not `NoCompression` returns a result tagged
`NoCompression`, not the operand's method. -/
theorem C8_mixed_method_counterexample :
    (multiplyRkFull 'N' 'N' (⟨⟨0, 2⟩, ⟨0, 2⟩, none, none, 3⟩ : RkM ℚ)
        ⟨⟨0, 2⟩, ⟨0, 2⟩, Mat.zeros 2 2⟩).map RkM.method = some NoCompression ∧
    (⟨⟨0, 2⟩, ⟨0, 2⟩, none, none, 3⟩ : RkM ℚ).method ≠ NoCompression :=
  ⟨rfl, by decide⟩

/-! ### C4: the fallback-to-dense path of `truncate` -/

/-- Claim C4, corrected: on the fallback-to-dense path (`rank > min(m, n)`),
the dense block obtained by evaluating the Rk is recompressed with
`truncatedSvd` at the `ε` argument passed to `truncate` — not at the global
recompression tolerance `ε_rec`, which this path never reads. -/
theorem C4_truncate_fallback_spec [CommRing R] [StarRing R] [Algebra ℚ R]
    (ker : Kernels R) (ctl : RkApproximationControl) (l2 uip mgsFlag : Bool)
    (r : RkM R) (eps : ℚ) (ipA ipB : Nat)
    (hrk : min r.rows.size r.cols.size < r.rank) :
    r.truncate ker ctl l2 uip mgsFlag eps ipA ipB =
      { r with a := ((ker.tsvd r.evalM eps).1.map Prod.fst),
               b := ((ker.tsvd r.evalM eps).1.map Prod.snd),
               method := (ker.tsvd r.evalM eps).2 } := by
  have hk : r.rank ≠ 0 := by omega
  unfold RkM.truncate
  rw [if_neg hk, if_pos hrk]

/-- Witness for C4's corrected statement on a concrete wide block. -/
theorem C4_truncate_fallback_spec_witness :
    min wRkWide.rows.size wRkWide.cols.size < wRkWide.rank ∧
    RkM.truncate wKerC4 ⟨0, 7⟩ false false false wRkWide 5 0 0 =
      { wRkWide with
          a := ((wKerC4.tsvd wRkWide.evalM 5).1.map Prod.fst),
          b := ((wKerC4.tsvd wRkWide.evalM 5).1.map Prod.snd),
          method := (wKerC4.tsvd wRkWide.evalM 5).2 } :=
  ⟨by decide,
   C4_truncate_fallback_spec wKerC4 ⟨0, 7⟩ false false false wRkWide 5 0 0 (by decide)⟩

/-- Counterexample to C4 as stated: with a `truncatedSvd` kernel that records
its tolerance in the method tag (99 for the `ε = 5` argument, 88 for
`ε_rec = 7`), `truncate(5, ·, ·)` on a wide block produces tag 99 — the `ε`
argument was used, not `ε_rec`. -/
theorem C4_truncate_fallback_counterexample :
    (RkM.truncate wKerC4 ⟨0, 7⟩ false false false wRkWide 5 0 0).method = 99 ∧
    (wKerC4.tsvd wRkWide.evalM
      ((⟨0, 7⟩ : RkApproximationControl).recompressionEpsilon)).2 = 88 ∧
    (99 : Nat) ≠ 88 :=
  ⟨by decide, by decide, by decide⟩

/-! ### C6: zero-rank results of `findK` and of Gram-Schmidt -/

/-- Claim C6: in `truncate` (QR path) and in `mGSTruncate`, a zero rank
reported by `findK` — or by either Gram-Schmidt factorisation — is not an
error: the Rk is cleared (both panels freed, rank 0, index sets and method
kept) and the call returns normally. -/
theorem C6_zero_rank_clear_spec [CommRing R] [StarRing R] [Algebra ℚ R]
    (ker : Kernels R) (ctl : RkApproximationControl) (l2 uip : Bool)
    (r : RkM R) (eps : ℚ) (ipA ipB : Nat) (A B : Mat R)
    (ha : r.a = some A) (hb : r.b = some B) (hk : r.rank ≠ 0) :
    ((¬ min r.rows.size r.cols.size < r.rank) →
      findK ctl l2 ((ker.svd ((Mat.zeros r.rank r.rank).gemm 'N' 'T' 1
          (ker.qr A (if uip then ipA else 0)).2
          (ker.qr B (if uip then ipB else 0)).2 0)).2.1) eps = 0 →
      r.truncate ker ctl l2 uip false eps ipA ipB = r.clear) ∧
    ((ker.mgs A eps ipA).2.2 = 0 →
      r.mgsTruncate ker ctl l2 eps ipA ipB = r.clear) ∧
    ((ker.mgs A eps ipA).2.2 ≠ 0 → (ker.mgs B eps ipB).2.2 = 0 →
      r.mgsTruncate ker ctl l2 eps ipA ipB = r.clear) ∧
    ((ker.mgs A eps ipA).2.2 ≠ 0 → (ker.mgs B eps ipB).2.2 ≠ 0 →
      findK ctl l2 ((ker.svd ((Mat.zeros (ker.mgs A eps ipA).2.2
          (ker.mgs B eps ipB).2.2).gemm 'N' 'T' 1
          (ker.mgs A eps ipA).2.1 (ker.mgs B eps ipB).2.1 0)).2.1) eps = 0 →
      r.mgsTruncate ker ctl l2 eps ipA ipB = r.clear) ∧
    (r.clear).rank = 0 ∧ (r.clear).a = none ∧ (r.clear).b = none ∧
    (r.clear).rows = r.rows ∧ (r.clear).cols = r.cols ∧
    (r.clear).method = r.method := by
  refine ⟨?_, ?_, ?_, ?_, by simp [RkM.clear, RkM.rank], rfl, rfl, rfl, rfl, rfl⟩
  · intro hsz h0
    unfold RkM.truncate
    rw [if_neg hk, if_neg hsz]
    simp only [Bool.false_eq_true, if_false, ha, hb, h0, if_true]
  · intro h0
    unfold RkM.mgsTruncate
    rw [if_neg hk]
    simp only [ha, hb, h0, if_true]
  · intro hka h0
    unfold RkM.mgsTruncate
    rw [if_neg hk]
    simp only [ha, hb, if_neg hka, h0, if_true]
  · intro hka hkb h0
    unfold RkM.mgsTruncate
    rw [if_neg hk]
    simp only [ha, hb, if_neg hka, if_neg hkb, h0, if_true]

/-- Witness for C6 on a concrete rank-1 block with kernels whose SVD reports
no singular values and whose Gram-Schmidt drops all columns. -/
theorem C6_zero_rank_clear_spec_witness :
    wRk.a = some wA ∧ wRk.b = some wB ∧ wRk.rank ≠ 0 ∧
    (((¬ min wRk.rows.size wRk.cols.size < wRk.rank) →
      findK ⟨0, 1⟩ false ((wKer.svd ((Mat.zeros wRk.rank wRk.rank).gemm 'N' 'T' 1
          (wKer.qr wA (if false then 0 else 0)).2
          (wKer.qr wB (if false then 0 else 0)).2 0)).2.1) 1 = 0 →
      wRk.truncate wKer ⟨0, 1⟩ false false false 1 0 0 = wRk.clear) ∧
    ((wKer.mgs wA 1 0).2.2 = 0 →
      wRk.mgsTruncate wKer ⟨0, 1⟩ false 1 0 0 = wRk.clear) ∧
    ((wKer.mgs wA 1 0).2.2 ≠ 0 → (wKer.mgs wB 1 0).2.2 = 0 →
      wRk.mgsTruncate wKer ⟨0, 1⟩ false 1 0 0 = wRk.clear) ∧
    ((wKer.mgs wA 1 0).2.2 ≠ 0 → (wKer.mgs wB 1 0).2.2 ≠ 0 →
      findK ⟨0, 1⟩ false ((wKer.svd ((Mat.zeros (wKer.mgs wA 1 0).2.2
          (wKer.mgs wB 1 0).2.2).gemm 'N' 'T' 1
          (wKer.mgs wA 1 0).2.1 (wKer.mgs wB 1 0).2.1 0)).2.1) 1 = 0 →
      wRk.mgsTruncate wKer ⟨0, 1⟩ false 1 0 0 = wRk.clear) ∧
    (wRk.clear).rank = 0 ∧ (wRk.clear).a = none ∧ (wRk.clear).b = none ∧
    (wRk.clear).rows = wRk.rows ∧ (wRk.clear).cols = wRk.cols ∧
    (wRk.clear).method = wRk.method) :=
  ⟨rfl, rfl, by decide,
   C6_zero_rank_clear_spec wKer ⟨0, 1⟩ false false wRk 1 0 0 wA wB rfl rfl (by decide)⟩

/-! ### C1: `formattedAddParts` -/

lemma perm_set_cons {α : Type} (xs : List α) (k : Nat) (v x : α)
    (hv : xs.get? k = some v) : (v :: xs.set k x).Perm (x :: xs) := by
  induction xs generalizing k with
  | nil => simp at hv
  | cons z zs ih =>
    cases k with
    | zero =>
      simp only [List.get?_cons_zero, Option.some_inj] at hv
      rw [List.set_cons_zero, hv]
      exact List.Perm.swap x v zs
    | succ k' =>
      simp only [List.get?_cons_succ] at hv
      rw [List.set_cons_succ]
      exact ((List.Perm.swap z v _).trans (List.Perm.cons z (ih k' hv))).trans
        (List.Perm.swap x z zs)

lemma listSwap_perm {α : Type} (l : List α) (i j : Nat) : (listSwap l i j).Perm l := by
  unfold listSwap
  induction l generalizing i j with
  | nil => simp
  | cons z zs ih =>
    cases hi : (z :: zs).get? i with
    | none => exact List.Perm.refl _
    | some x =>
      cases hj : (z :: zs).get? j with
      | none => exact List.Perm.refl _
      | some y =>
        cases i with
        | zero =>
          simp only [List.get?_cons_zero, Option.some_inj] at hi
          cases j with
          | zero =>
            simp only [List.get?_cons_zero, Option.some_inj] at hj
            simp [← hi, ← hj]
          | succ j' =>
            simp only [List.get?_cons_succ] at hj
            simp only [List.set_cons_zero, List.set_cons_succ]
            rw [hi]
            exact perm_set_cons zs j' y x hj
        | succ i' =>
          simp only [List.get?_cons_succ] at hi
          cases j with
          | zero =>
            simp only [List.get?_cons_zero, Option.some_inj] at hj
            simp only [List.set_cons_succ, List.set_cons_zero]
            rw [hj]
            exact perm_set_cons zs i' x y hi
          | succ j' =>
            simp only [List.get?_cons_succ] at hj
            simp only [List.set_cons_succ]
            refine List.Perm.cons z ?_
            have hthis := ih i' j'
            rw [hi, hj] at hthis
            exact hthis

lemma bestRkReorder_perm [CommRing R] (l : List (R × RkM R)) :
    ((bestRkReorder l).1).Perm l := by
  unfold bestRkReorder
  dsimp only
  by_cases hc1 : 0 < (bestRkPhase1 l).2
  · simp only [if_pos hc1]
    by_cases hc2 : 0 ≤
        (bestRkPhase2 (listSwap l 0 (bestRkPhase1 l).2.toNat) (bestRkPhase1 l).1).2.1
    · simp only [if_pos hc2]
      exact ((listSwap_perm _ 1 _).trans (listSwap_perm _ 0 _)).trans (listSwap_perm l 0 _)
    · simp only [if_neg hc2]
      exact listSwap_perm l 0 _
  · simp only [if_neg hc1]
    by_cases hc2 : 0 ≤ (bestRkPhase2 l (bestRkPhase1 l).1).2.1
    · simp only [if_pos hc2]
      exact ((listSwap_perm _ 1 _).trans (listSwap_perm _ 0 _)).trans (List.Perm.refl l)
    · simp only [if_neg hc2]
      exact List.Perm.refl l

lemma padEntry_rank_zero [CommRing R] [StarRing R] (prows pcols : IndexSet)
    (q : RkM R) (hk : q.rank = 0) (i j : Nat) : padEntry prows pcols q i j = 0 := by
  simp only [padEntry]
  rw [evalM_of_rank_zero q hk]
  simp [Mat.zeros]

lemma padEntry_rows_zero [CommRing R] [StarRing R] (prows pcols : IndexSet)
    (q : RkM R) (h : q.rows.size = 0) (i j : Nat) : padEntry prows pcols q i j = 0 := by
  have hc : ¬ (q.rows.offset - prows.offset ≤ i ∧
      i < q.rows.offset - prows.offset + q.rows.size ∧
      q.cols.offset - pcols.offset ≤ j ∧
      j < q.cols.offset - pcols.offset + q.cols.size) := by
    rintro ⟨h1, h2, -, -⟩
    omega
  simp only [padEntry]
  rw [if_neg hc]

lemma padEntry_cols_zero [CommRing R] [StarRing R] (prows pcols : IndexSet)
    (q : RkM R) (h : q.cols.size = 0) (i j : Nat) : padEntry prows pcols q i j = 0 := by
  have hc : ¬ (q.rows.offset - prows.offset ≤ i ∧
      i < q.rows.offset - prows.offset + q.rows.size ∧
      q.cols.offset - pcols.offset ≤ j ∧
      j < q.cols.offset - pcols.offset + q.cols.size) := by
    rintro ⟨-, -, h3, h4⟩
    omega
  simp only [padEntry]
  rw [if_neg hc]

lemma copy_scale_entry [CommRing R] [DecidableEq R] (A pa : Mat R) (α : R)
    (ro k i c : Nat) :
    (if α ≠ 1 then (A.copyAt pa ro k).scaleBlock α ro pa.rows k pa.cols
     else A.copyAt pa ro k).entry i c =
      if ro ≤ i ∧ i < ro + pa.rows ∧ k ≤ c ∧ c < k + pa.cols then
        α * pa.entry (i - ro) (c - k)
      else A.entry i c := by
  by_cases hα : α = 1
  · rw [if_neg (by simpa using hα)]
    subst hα
    simp only [Mat.copyAt, one_mul]
  · rw [if_pos hα]
    simp only [Mat.scaleBlock, Mat.copyAt]
    split_ifs with hw
    · rfl
    · rfl

lemma concatStep_k [CommRing R] [DecidableEq R] (prows pcols : IndexSet)
    (st : Mat R × Mat R × Nat) (p : R × RkM R) :
    (concatStep prows pcols st p).2.2 = st.2.2 + p.2.rank := rfl

lemma concatStep_a_rows [CommRing R] [DecidableEq R] (prows pcols : IndexSet)
    (st : Mat R × Mat R × Nat) (p : R × RkM R) :
    (concatStep prows pcols st p).1.rows = st.1.rows := by
  simp only [concatStep]
  split
  · rfl
  · rfl

lemma concatStep_a_cols [CommRing R] [DecidableEq R] (prows pcols : IndexSet)
    (st : Mat R × Mat R × Nat) (p : R × RkM R) :
    (concatStep prows pcols st p).1.cols = st.1.cols := by
  simp only [concatStep]
  split
  · rfl
  · rfl

lemma concatStep_b_rows [CommRing R] [DecidableEq R] (prows pcols : IndexSet)
    (st : Mat R × Mat R × Nat) (p : R × RkM R) :
    (concatStep prows pcols st p).2.1.rows = st.2.1.rows := rfl

lemma concatStep_b_cols [CommRing R] [DecidableEq R] (prows pcols : IndexSet)
    (st : Mat R × Mat R × Nat) (p : R × RkM R) :
    (concatStep prows pcols st p).2.1.cols = st.2.1.cols := rfl

lemma concatStep_a_entry [CommRing R] [DecidableEq R] (prows pcols : IndexSet)
    (A B : Mat R) (k : Nat) (p : R × RkM R) (pa : Mat R) (ha : p.2.a = some pa)
    (i c : Nat) :
    (concatStep prows pcols (A, B, k) p).1.entry i c =
      if p.2.rows.offset - prows.offset ≤ i ∧
          i < p.2.rows.offset - prows.offset + pa.rows ∧ k ≤ c ∧ c < k + pa.cols then
        p.1 * pa.entry (i - (p.2.rows.offset - prows.offset)) (c - k)
      else A.entry i c := by
  simp only [concatStep, ha, Option.getD_some]
  exact copy_scale_entry A pa p.1 (p.2.rows.offset - prows.offset) k i c

lemma concatStep_b_entry [CommRing R] [DecidableEq R] (prows pcols : IndexSet)
    (A B : Mat R) (k : Nat) (p : R × RkM R) (pb : Mat R) (hb : p.2.b = some pb)
    (j c : Nat) :
    (concatStep prows pcols (A, B, k) p).2.1.entry j c =
      if p.2.cols.offset - pcols.offset ≤ j ∧
          j < p.2.cols.offset - pcols.offset + pb.rows ∧ k ≤ c ∧ c < k + pb.cols then
        pb.entry (j - (p.2.cols.offset - pcols.offset)) (c - k)
      else B.entry j c := by
  simp only [concatStep, hb, Option.getD_some]
  rfl

lemma concatStep_sum [CommRing R] [StarRing R] [DecidableEq R] (prows pcols : IndexSet)
    (A B : Mat R) (k total : Nat) (p : R × RkM R) (pa pb : Mat R)
    (ha : p.2.a = some pa) (hb : p.2.b = some pb)
    (hac : pa.cols = p.2.rank) (hbc : pb.cols = p.2.rank)
    (har : pa.rows = p.2.rows.size) (hbr : pb.rows = p.2.cols.size)
    (hK : p.2.rank ≠ 0) (hk : k + p.2.rank ≤ total)
    (hzA : ∀ i c, k ≤ c → A.entry i c = 0)
    (hzB : ∀ j c, k ≤ c → B.entry j c = 0) (i j : Nat) :
    ∑ c ∈ Finset.range total,
        (concatStep prows pcols (A, B, k) p).1.entry i c *
          (concatStep prows pcols (A, B, k) p).2.1.entry j c =
      (∑ c ∈ Finset.range total, A.entry i c * B.entry j c) +
        p.1 * padEntry prows pcols p.2 i j := by
  have hptw : ∀ c, (concatStep prows pcols (A, B, k) p).1.entry i c *
      (concatStep prows pcols (A, B, k) p).2.1.entry j c =
      A.entry i c * B.entry j c +
        (if k ≤ c ∧ c < k + p.2.rank then
          (if p.2.rows.offset - prows.offset ≤ i ∧
              i < p.2.rows.offset - prows.offset + pa.rows then
            p.1 * pa.entry (i - (p.2.rows.offset - prows.offset)) (c - k) else 0) *
          (if p.2.cols.offset - pcols.offset ≤ j ∧
              j < p.2.cols.offset - pcols.offset + pb.rows then
            pb.entry (j - (p.2.cols.offset - pcols.offset)) (c - k) else 0)
        else 0) := by
    intro c
    rw [concatStep_a_entry prows pcols A B k p pa ha i c,
        concatStep_b_entry prows pcols A B k p pb hb j c]
    by_cases hc : k ≤ c ∧ c < k + p.2.rank
    · have hA0 : A.entry i c = 0 := hzA i c hc.1
      have hB0 : B.entry j c = 0 := hzB j c hc.1
      rw [if_pos hc]
      have e1 : (if p.2.rows.offset - prows.offset ≤ i ∧
            i < p.2.rows.offset - prows.offset + pa.rows ∧ k ≤ c ∧ c < k + pa.cols then
            p.1 * pa.entry (i - (p.2.rows.offset - prows.offset)) (c - k)
          else A.entry i c) =
          (if p.2.rows.offset - prows.offset ≤ i ∧
              i < p.2.rows.offset - prows.offset + pa.rows then
            p.1 * pa.entry (i - (p.2.rows.offset - prows.offset)) (c - k) else 0) := by
        rw [hac]
        by_cases hw : p.2.rows.offset - prows.offset ≤ i ∧
            i < p.2.rows.offset - prows.offset + pa.rows
        · rw [if_pos ⟨hw.1, hw.2, hc.1, hc.2⟩, if_pos hw]
        · rw [if_neg fun hx => hw ⟨hx.1, hx.2.1⟩, if_neg hw, hA0]
      have e2 : (if p.2.cols.offset - pcols.offset ≤ j ∧
            j < p.2.cols.offset - pcols.offset + pb.rows ∧ k ≤ c ∧ c < k + pb.cols then
            pb.entry (j - (p.2.cols.offset - pcols.offset)) (c - k)
          else B.entry j c) =
          (if p.2.cols.offset - pcols.offset ≤ j ∧
              j < p.2.cols.offset - pcols.offset + pb.rows then
            pb.entry (j - (p.2.cols.offset - pcols.offset)) (c - k) else 0) := by
        rw [hbc]
        by_cases hw : p.2.cols.offset - pcols.offset ≤ j ∧
            j < p.2.cols.offset - pcols.offset + pb.rows
        · rw [if_pos ⟨hw.1, hw.2, hc.1, hc.2⟩, if_pos hw]
        · rw [if_neg fun hx => hw ⟨hx.1, hx.2.1⟩, if_neg hw, hB0]
      rw [e1, e2, hA0, hB0, zero_mul, zero_add]
    · have hwA : ¬ (p.2.rows.offset - prows.offset ≤ i ∧
          i < p.2.rows.offset - prows.offset + pa.rows ∧ k ≤ c ∧ c < k + pa.cols) := by
        rw [hac]
        exact fun hx => hc ⟨hx.2.2.1, hx.2.2.2⟩
      have hwB : ¬ (p.2.cols.offset - pcols.offset ≤ j ∧
          j < p.2.cols.offset - pcols.offset + pb.rows ∧ k ≤ c ∧ c < k + pb.cols) := by
        rw [hbc]
        exact fun hx => hc ⟨hx.2.2.1, hx.2.2.2⟩
      rw [if_neg hwA, if_neg hwB, if_neg hc, add_zero]
  simp only [hptw]
  rw [Finset.sum_add_distrib]
  congr 1
  rw [← Finset.sum_filter]
  have hIco : (Finset.range total).filter
      (fun c => k ≤ c ∧ c < k + p.2.rank) = Finset.Ico k (k + p.2.rank) := by
    ext x
    simp only [Finset.mem_filter, Finset.mem_range, Finset.mem_Ico]
    omega
  rw [hIco, Finset.sum_Ico_eq_sum_range]
  simp only [Nat.add_sub_cancel_left]
  by_cases hwA : p.2.rows.offset - prows.offset ≤ i ∧
      i < p.2.rows.offset - prows.offset + pa.rows
  · by_cases hwB : p.2.cols.offset - pcols.offset ≤ j ∧
        j < p.2.cols.offset - pcols.offset + pb.rows
    · simp only [if_pos hwA, if_pos hwB]
      have hpad : padEntry prows pcols p.2 i j =
          p.2.evalM.entry (i - (p.2.rows.offset - prows.offset))
            (j - (p.2.cols.offset - pcols.offset)) := by
        simp only [padEntry]
        rw [if_pos]
        refine ⟨hwA.1, ?_, hwB.1, ?_⟩
        · omega
        · omega
      rw [hpad, evalM_entry p.2 pa pb ha hb (by rw [hac]; exact hK)]
      rw [Finset.mul_sum, hac]
      exact Finset.sum_congr rfl fun c _ => by ring
    · simp only [if_neg hwB, mul_zero, Finset.sum_const_zero]
      have hp0 : padEntry prows pcols p.2 i j = 0 := by
        simp only [padEntry]
        rw [if_neg]
        rintro ⟨-, -, h3, h4⟩
        exact hwB ⟨h3, by omega⟩
      rw [hp0, mul_zero]
  · simp only [if_neg hwA, zero_mul, Finset.sum_const_zero]
    have hp0 : padEntry prows pcols p.2 i j = 0 := by
      simp only [padEntry]
      rw [if_neg]
      rintro ⟨h1, h2, -, -⟩
      exact hwA ⟨h1, by omega⟩
    rw [hp0, mul_zero]

lemma concat_fold_dims [CommRing R] [DecidableEq R] (prows pcols : IndexSet)
    (l : List (R × RkM R)) :
    ∀ (st : Mat R × Mat R × Nat),
      (l.foldl (concatStep prows pcols) st).1.rows = st.1.rows ∧
      (l.foldl (concatStep prows pcols) st).1.cols = st.1.cols ∧
      (l.foldl (concatStep prows pcols) st).2.1.rows = st.2.1.rows ∧
      (l.foldl (concatStep prows pcols) st).2.1.cols = st.2.1.cols := by
  induction l with
  | nil => exact fun st => ⟨rfl, rfl, rfl, rfl⟩
  | cons p t ih =>
    intro st
    obtain ⟨h1, h2, h3, h4⟩ := ih (concatStep prows pcols st p)
    exact ⟨h1.trans (concatStep_a_rows prows pcols st p),
      h2.trans (concatStep_a_cols prows pcols st p),
      h3.trans (concatStep_b_rows prows pcols st p),
      h4.trans (concatStep_b_cols prows pcols st p)⟩

lemma concat_fold [CommRing R] [StarRing R] [DecidableEq R] (prows pcols : IndexSet)
    (total : Nat) :
    ∀ (l : List (R × RkM R)), (∀ p ∈ l, PartOK p) →
      ∀ (A B : Mat R) (k : Nat),
        k + (l.map (fun p => p.2.rank)).sum ≤ total →
        (∀ i c, k ≤ c → A.entry i c = 0) →
        (∀ j c, k ≤ c → B.entry j c = 0) →
        (∀ i c, k + (l.map (fun p => p.2.rank)).sum ≤ c →
            (l.foldl (concatStep prows pcols) (A, B, k)).1.entry i c = 0) ∧
        (∀ j c, k + (l.map (fun p => p.2.rank)).sum ≤ c →
            (l.foldl (concatStep prows pcols) (A, B, k)).2.1.entry j c = 0) ∧
        (∀ i j, ∑ c ∈ Finset.range total,
            (l.foldl (concatStep prows pcols) (A, B, k)).1.entry i c *
              (l.foldl (concatStep prows pcols) (A, B, k)).2.1.entry j c =
          (∑ c ∈ Finset.range total, A.entry i c * B.entry j c) +
            (l.map (fun p => p.1 * padEntry prows pcols p.2 i j)).sum) := by
  intro l
  induction l with
  | nil =>
    intro _ A B k _ hzA hzB
    refine ⟨?_, ?_, ?_⟩
    · intro i c hc
      exact hzA i c (by simpa using hc)
    · intro j c hc
      exact hzB j c (by simpa using hc)
    · intro i j
      simp
  | cons p t ih =>
    intro hl A B k hk hzA hzB
    obtain ⟨pa, pb, ha, hb, hac, hbc, har, hbr, hK⟩ := hl p (List.mem_cons_self p t)
    have hkc : k + p.2.rank ≤ total := by
      simp only [List.map_cons, List.sum_cons] at hk
      omega
    have hk1 : (k + p.2.rank) + (t.map (fun p => p.2.rank)).sum ≤ total := by
      simp only [List.map_cons, List.sum_cons] at hk
      omega
    have hzA1 : ∀ i c, k + p.2.rank ≤ c →
        (concatStep prows pcols (A, B, k) p).1.entry i c = 0 := by
      intro i c hc
      have hcnd : ¬ (p.2.rows.offset - prows.offset ≤ i ∧
          i < p.2.rows.offset - prows.offset + pa.rows ∧ k ≤ c ∧ c < k + pa.cols) := by
        rintro ⟨-, -, -, h4⟩
        omega
      rw [concatStep_a_entry prows pcols A B k p pa ha i c, if_neg hcnd]
      exact hzA i c (by omega)
    have hzB1 : ∀ j c, k + p.2.rank ≤ c →
        (concatStep prows pcols (A, B, k) p).2.1.entry j c = 0 := by
      intro j c hc
      have hcnd : ¬ (p.2.cols.offset - pcols.offset ≤ j ∧
          j < p.2.cols.offset - pcols.offset + pb.rows ∧ k ≤ c ∧ c < k + pb.cols) := by
        rintro ⟨-, -, -, h4⟩
        omega
      rw [concatStep_b_entry prows pcols A B k p pb hb j c, if_neg hcnd]
      exact hzB j c (by omega)
    obtain ⟨z1, z2, hsum⟩ :=
      ih (fun q hq => hl q (List.mem_cons_of_mem p hq)) _ _ _ hk1 hzA1 hzB1
    refine ⟨?_, ?_, ?_⟩
    · intro i c hc
      refine z1 i c ?_
      simp only [List.map_cons, List.sum_cons] at hc
      omega
    · intro j c hc
      refine z2 j c ?_
      simp only [List.map_cons, List.sum_cons] at hc
      omega
    · intro i j
      have hstep := concatStep_sum prows pcols A B k total p pa pb ha hb hac hbc
        har hbr hK hkc hzA hzB i j
      have h1 := hsum i j
      rw [show ((p :: t).foldl (concatStep prows pcols) (A, B, k)) =
          t.foldl (concatStep prows pcols) (concatStep prows pcols (A, B, k) p) from rfl]
      rw [List.map_cons, List.sum_cons, ← add_assoc, ← hstep]
      exact h1

lemma usedList_ok [CommRing R] [DecidableEq R] (r : RkM R)
    (parts : List (R × Option (RkM R))) (hr : r.Inv)
    (hparts : ∀ p ∈ parts, ∀ q, p.2 = some q → q.Inv) :
    ∀ p ∈ usedList r parts, PartOK p := by
  intro p hp
  unfold usedList at hp
  rw [List.mem_append] at hp
  rcases hp with hp | hp
  · by_cases hk : r.rank ≠ 0
    · rw [if_pos hk, List.mem_singleton] at hp
      subst hp
      rcases hr with ⟨han, -⟩ | ⟨A, B, ha, hb, hcols, -, hra, hrb⟩
      · exact absurd (by simp [RkM.rank, han]) hk
      · exact ⟨A, B, ha, hb, by simp [RkM.rank, ha], by simp [RkM.rank, ha, ← hcols],
          hra, hrb, hk⟩
    · rw [if_neg hk] at hp
      simp at hp
  · rw [List.mem_filterMap] at hp
    obtain ⟨x, hx, hfx⟩ := hp
    cases h2 : x.2 with
    | none =>
      rw [h2] at hfx
      simp at hfx
    | some q =>
      rw [h2] at hfx
      dsimp only at hfx
      by_cases hc : q.rank = 0 ∨ q.rows.size = 0 ∨ q.cols.size = 0 ∨ x.1 = 0
      · rw [if_pos hc] at hfx
        simp at hfx
      · rw [if_neg hc] at hfx
        have hpq : p = (x.1, q) := (Option.some.inj hfx).symm
        subst hpq
        push_neg at hc
        rcases hparts x hx q h2 with ⟨han, -⟩ | ⟨A, B, ha, hb, hcols, -, hra, hrb⟩
        · exact absurd (by simp [RkM.rank, han]) hc.1
        · exact ⟨A, B, ha, hb, by simp [RkM.rank, ha], by simp [RkM.rank, ha, ← hcols],
            hra, hrb, hc.1⟩

lemma usedList_cons_of_rank [CommRing R] [DecidableEq R] (r : RkM R)
    (parts : List (R × Option (RkM R))) (hk : r.rank ≠ 0) :
    usedList r parts = ((1 : R), r) ::
      parts.filterMap (fun p =>
        match p.2 with
        | some q =>
          if q.rank = 0 ∨ q.rows.size = 0 ∨ q.cols.size = 0 ∨ p.1 = 0 then none
          else some (p.1, q)
        | none => none) := by
  unfold usedList
  rw [if_pos hk]
  rfl

lemma usedList_of_rank_zero [CommRing R] [DecidableEq R] (r : RkM R)
    (parts : List (R × Option (RkM R))) (hk : r.rank = 0) :
    usedList r parts =
      parts.filterMap (fun p =>
        match p.2 with
        | some q =>
          if q.rank = 0 ∨ q.rows.size = 0 ∨ q.cols.size = 0 ∨ p.1 = 0 then none
          else some (p.1, q)
        | none => none) := by
  unfold usedList
  rw [if_neg (by simp [hk])]
  rfl

lemma filtered_sum [CommRing R] [StarRing R] [DecidableEq R] (prows pcols : IndexSet)
    (parts : List (R × Option (RkM R))) (i j : Nat) :
    ((parts.filterMap (fun p =>
        match p.2 with
        | some q =>
          if q.rank = 0 ∨ q.rows.size = 0 ∨ q.cols.size = 0 ∨ p.1 = 0 then none
          else some (p.1, q)
        | none => none)).map (fun p => p.1 * padEntry prows pcols p.2 i j)).sum =
      (parts.map (fun p =>
        match p.2 with
        | some q => p.1 * padEntry prows pcols q i j
        | none => 0)).sum := by
  induction parts with
  | nil => rfl
  | cons x t ih =>
    rw [List.map_cons, List.sum_cons, List.filterMap_cons]
    cases h2 : x.2 with
    | none =>
      simp only [ih, zero_add]
    | some q =>
      by_cases hc : q.rank = 0 ∨ q.rows.size = 0 ∨ q.cols.size = 0 ∨ x.1 = 0
      · simp only [if_pos hc]
        rw [ih]
        have h0 : x.1 * padEntry prows pcols q i j = 0 := by
          rcases hc with h | h | h | h
          · rw [padEntry_rank_zero prows pcols q h, mul_zero]
          · rw [padEntry_rows_zero prows pcols q h, mul_zero]
          · rw [padEntry_cols_zero prows pcols q h, mul_zero]
          · rw [h, zero_mul]
        rw [h0, zero_add]
      · simp only [if_neg hc]
        rw [List.map_cons, List.sum_cons, ih]

lemma usedList_sum [CommRing R] [StarRing R] [DecidableEq R] (r : RkM R)
    (parts : List (R × Option (RkM R))) (i j : Nat)
    (hi : i < r.rows.size) (hj : j < r.cols.size) :
    ((usedList r parts).map (fun p => p.1 * padEntry r.rows r.cols p.2 i j)).sum =
      exactSumEntry r parts i j := by
  have hself : padEntry r.rows r.cols r i j = r.evalM.entry i j := by
    simp only [padEntry, Nat.sub_self]
    rw [if_pos ⟨Nat.zero_le i, by omega, Nat.zero_le j, by omega⟩]
    simp
  unfold exactSumEntry
  by_cases hk : r.rank = 0
  · rw [usedList_of_rank_zero r parts hk, filtered_sum r.rows r.cols parts i j]
    rw [evalM_of_rank_zero r hk]
    simp [Mat.zeros]
  · rw [usedList_cons_of_rank r parts hk, List.map_cons, List.sum_cons,
      filtered_sum r.rows r.cols parts i j, one_mul, hself]

lemma fap_empty [CommRing R] [StarRing R] [Algebra ℚ R] [DecidableEq R]
    (ker : Kernels R) (ctl : RkApproximationControl) (l2 uip recompMGS bestRk : Bool)
    (r : RkM R) (parts : List (R × Option (RkM R))) (dotruncate : Bool)
    (h : (usedList r parts).length = 0) :
    r.formattedAddParts ker ctl l2 uip recompMGS bestRk parts dotruncate =
      ⟨r.rows, r.cols, none, none,
        (usedList r parts).foldl (fun acc p => min acc p.2.method) r.method⟩ := by
  simp only [RkM.formattedAddParts]
  rw [if_pos h]

lemma fap_shortcut [CommRing R] [StarRing R] [Algebra ℚ R] [DecidableEq R]
    (ker : Kernels R) (ctl : RkApproximationControl) (l2 uip recompMGS bestRk : Bool)
    (r : RkM R) (parts : List (R × Option (RkM R))) (dotruncate : Bool)
    (h0 : ¬ (usedList r parts).length = 0)
    (h1 : min r.rows.size r.cols.size ≤
      ((usedList r parts).map (fun p => p.2.rank)).sum) :
    r.formattedAddParts ker ctl l2 uip recompMGS bestRk parts dotruncate =
      r.formattedAddPartsDense ker ctl
        (if r.rank ≠ 0 then
          ((1 : R), (none : Option (FullM R))) ::
            ((usedList r parts).drop 1).map
              (fun p => (p.1, some ⟨p.2.rows, p.2.cols, p.2.evalM⟩))
        else (usedList r parts).map
          (fun p => (p.1, some ⟨p.2.rows, p.2.cols, p.2.evalM⟩))) := by
  simp only [RkM.formattedAddParts]
  rw [if_neg h0, if_pos h1]

lemma fap_concat [CommRing R] [StarRing R] [Algebra ℚ R] [DecidableEq R]
    (ker : Kernels R) (ctl : RkApproximationControl) (l2 uip recompMGS bestRk : Bool)
    (r : RkM R) (parts : List (R × Option (RkM R))) (dotruncate : Bool)
    (h0 : ¬ (usedList r parts).length = 0)
    (h1 : ¬ min r.rows.size r.cols.size ≤
      ((usedList r parts).map (fun p => p.2.rank)).sum) :
    r.formattedAddParts ker ctl l2 uip recompMGS bestRk parts dotruncate =
      (let used := usedList r parts
       let reord :=
         if bestRk then bestRkReorder used
         else (used,
           if (used.headD (dfltPart R)).2.aOrtho then (used.headD (dfltPart R)).2.rank
           else 0,
           if (used.headD (dfltPart R)).2.bOrtho then (used.headD (dfltPart R)).2.rank
           else 0)
       let cc := concatPanels r.rows r.cols r.rows.size r.cols.size
         ((used.map (fun p => p.2.rank)).sum) reord.1
       let rk : RkM R := ⟨r.rows, r.cols, some cc.1, some cc.2.1,
         used.foldl (fun acc p => min acc p.2.method) r.method⟩
       if 1 < used.length ∧ dotruncate = true then
         rk.truncate ker ctl l2 uip recompMGS ctl.recompressionEpsilon reord.2.1 reord.2.2
       else rk) := by
  simp only [RkM.formattedAddParts]
  rw [if_neg h0, if_neg h1]

lemma axpy_fold_dims [CommRing R] (r : RkM R) (l : List (R × Option (FullM R))) :
    ∀ (M : Mat R),
      (l.foldl (fun acc p =>
          match p.2 with
          | some f => acc.axpyAt p.1 f.data (f.rows_.offset - r.rows.offset)
              (f.cols_.offset - r.cols.offset)
          | none => acc) M).rows = M.rows ∧
      (l.foldl (fun acc p =>
          match p.2 with
          | some f => acc.axpyAt p.1 f.data (f.rows_.offset - r.rows.offset)
              (f.cols_.offset - r.cols.offset)
          | none => acc) M).cols = M.cols := by
  induction l with
  | nil => exact fun M => ⟨rfl, rfl⟩
  | cons p t ih =>
    intro M
    cases h2 : p.2 with
    | none =>
      rw [List.foldl_cons, h2]
      exact ih M
    | some f =>
      rw [List.foldl_cons, h2]
      exact ih (M.axpyAt p.1 f.data (f.rows_.offset - r.rows.offset)
        (f.cols_.offset - r.cols.offset))

lemma axpy_fold_entry [CommRing R] (r : RkM R) (l : List (R × Option (FullM R))) :
    ∀ (M : Mat R) (i j : Nat),
      (l.foldl (fun acc p =>
          match p.2 with
          | some f => acc.axpyAt p.1 f.data (f.rows_.offset - r.rows.offset)
              (f.cols_.offset - r.cols.offset)
          | none => acc) M).entry i j =
        M.entry i j + (l.map (fun p =>
          match p.2 with
          | some f =>
            if f.rows_.offset - r.rows.offset ≤ i ∧
                i < f.rows_.offset - r.rows.offset + f.data.rows ∧
                f.cols_.offset - r.cols.offset ≤ j ∧
                j < f.cols_.offset - r.cols.offset + f.data.cols then
              p.1 * f.data.entry (i - (f.rows_.offset - r.rows.offset))
                (j - (f.cols_.offset - r.cols.offset))
            else 0
          | none => 0)).sum := by
  induction l with
  | nil =>
    intro M i j
    simp
  | cons p t ih =>
    intro M i j
    rw [List.foldl_cons, List.map_cons, List.sum_cons]
    cases h2 : p.2 with
    | none =>
      dsimp only
      rw [ih M i j, zero_add]
    | some f =>
      dsimp only
      rw [ih (M.axpyAt p.1 f.data (f.rows_.offset - r.rows.offset)
        (f.cols_.offset - r.cols.offset)) i j]
      have haxpy : (M.axpyAt p.1 f.data (f.rows_.offset - r.rows.offset)
          (f.cols_.offset - r.cols.offset)).entry i j =
          M.entry i j + (if f.rows_.offset - r.rows.offset ≤ i ∧
              i < f.rows_.offset - r.rows.offset + f.data.rows ∧
              f.cols_.offset - r.cols.offset ≤ j ∧
              j < f.cols_.offset - r.cols.offset + f.data.cols then
            p.1 * f.data.entry (i - (f.rows_.offset - r.rows.offset))
              (j - (f.cols_.offset - r.cols.offset))
          else 0) := by
        simp only [Mat.axpyAt]
        split_ifs with h
        · rfl
        · rw [add_zero]
      rw [haxpy, add_assoc]

lemma concat_value [CommRing R] [StarRing R] [DecidableEq R] (r : RkM R)
    (parts : List (R × Option (RkM R))) (hr : r.Inv)
    (hparts : ∀ p ∈ parts, ∀ q, p.2 = some q → q.Inv)
    (l : List (R × RkM R)) (hl : l.Perm (usedList r parts))
    (hne : (usedList r parts).length ≠ 0) (mth : Nat) :
    MatEq (RkM.evalM ⟨r.rows, r.cols,
        some (concatPanels r.rows r.cols r.rows.size r.cols.size
          ((usedList r parts).map (fun p => p.2.rank)).sum l).1,
        some (concatPanels r.rows r.cols r.rows.size r.cols.size
          ((usedList r parts).map (fun p => p.2.rank)).sum l).2.1, mth⟩)
      (exactSumMat r parts) := by
  simp only [concatPanels]
  have hOK : ∀ p ∈ l, PartOK p :=
    fun p hp => usedList_ok r parts hr hparts p (hl.mem_iff.mp hp)
  have htot : (l.map (fun p => p.2.rank)).sum =
      ((usedList r parts).map (fun p => p.2.rank)).sum :=
    (hl.map (fun p => p.2.rank)).sum_eq
  obtain ⟨z1, z2, hsum⟩ := concat_fold r.rows r.cols
    (((usedList r parts).map (fun p => p.2.rank)).sum) l hOK
    (Mat.zeros r.rows.size (((usedList r parts).map (fun p => p.2.rank)).sum))
    (Mat.zeros r.cols.size (((usedList r parts).map (fun p => p.2.rank)).sum)) 0
    (by rw [zero_add, htot]) (fun i c _ => rfl) (fun j c _ => rfl)
  have hdims := concat_fold_dims r.rows r.cols l
    (Mat.zeros r.rows.size (((usedList r parts).map (fun p => p.2.rank)).sum),
     Mat.zeros r.cols.size (((usedList r parts).map (fun p => p.2.rank)).sum), 0)
  have htotpos : ((usedList r parts).map (fun p => p.2.rank)).sum ≠ 0 := by
    cases hu : usedList r parts with
    | nil =>
      rw [hu] at hne
      simp at hne
    | cons u us =>
      have hOKu : PartOK u := usedList_ok r parts hr hparts u
        (by rw [hu]; exact List.mem_cons_self u us)
      obtain ⟨-, -, -, -, -, -, -, -, hKu⟩ := hOKu
      rw [List.map_cons, List.sum_cons]
      intro hz
      exact hKu (by omega)
  have hcols1 : (l.foldl (concatStep r.rows r.cols)
      (Mat.zeros r.rows.size (((usedList r parts).map (fun p => p.2.rank)).sum),
       Mat.zeros r.cols.size (((usedList r parts).map (fun p => p.2.rank)).sum),
       0)).1.cols = ((usedList r parts).map (fun p => p.2.rank)).sum :=
    hdims.2.1
  refine ⟨?_, ?_, ?_⟩
  · rw [evalM_rows]
    rfl
  · rw [evalM_cols]
    rfl
  · intro i hi j hj
    rw [evalM_rows] at hi
    rw [evalM_cols] at hj
    rw [evalM_entry _ _ _ rfl rfl (by rw [hcols1]; exact htotpos) i j, hcols1,
      hsum i j]
    have hz : ∑ c ∈ Finset.range (((usedList r parts).map (fun p => p.2.rank)).sum),
        (Mat.zeros r.rows.size (((usedList r parts).map (fun p => p.2.rank)).sum)
          : Mat R).entry i c *
        (Mat.zeros r.cols.size (((usedList r parts).map (fun p => p.2.rank)).sum)
          : Mat R).entry j c = 0 := by
      simp [Mat.zeros]
    rw [hz, zero_add,
      (hl.map (fun p => p.1 * padEntry r.rows r.cols p.2 i j)).sum_eq,
      usedList_sum r parts i j hi hj]
    rfl

lemma dense_sum [CommRing R] [StarRing R] (r : RkM R) (t : List (R × RkM R))
    (i j : Nat) :
    ((t.map (fun p => (p.1, some (⟨p.2.rows, p.2.cols, p.2.evalM⟩ : FullM R)))).map
      (fun p : R × Option (FullM R) =>
        match p.2 with
        | some f =>
          if f.rows_.offset - r.rows.offset ≤ i ∧
              i < f.rows_.offset - r.rows.offset + f.data.rows ∧
              f.cols_.offset - r.cols.offset ≤ j ∧
              j < f.cols_.offset - r.cols.offset + f.data.cols then
            p.1 * f.data.entry (i - (f.rows_.offset - r.rows.offset))
              (j - (f.cols_.offset - r.cols.offset))
          else 0
        | none => 0)).sum =
    (t.map (fun p => p.1 * padEntry r.rows r.cols p.2 i j)).sum := by
  rw [List.map_map]
  refine congrArg List.sum (congrArg (fun f => List.map f t) (funext fun p => ?_))
  dsimp only [Function.comp]
  rw [evalM_rows, evalM_cols]
  simp only [padEntry]
  rw [mul_ite, mul_zero]

/-- Claim C1 (amended): for a valid target and valid parts whose index sets are
subsets, `formattedAddParts(α, parts, dotruncate)` returns an Rk whose dense
value is `M(R) + Σᵢ αᵢ·M(partsᵢ)` exactly when no term participated, or when
the total rank stays below `min(m, n)` and no recompression runs (`dotruncate`
false or at most one term); when the total rank reaches `min(m, n)` the dense
shortcut compresses the exact sum through `truncatedSvd` at `ε_rec` regardless
of `dotruncate`; and when the final `truncate` step runs it is applied at
`ε_rec` to an Rk whose dense value is exactly the sum. -/
theorem C1_formattedAddParts_spec [CommRing R] [StarRing R] [Algebra ℚ R]
    [DecidableEq R] (ker : Kernels R) (ctl : RkApproximationControl)
    (l2 uip recompMGS bestRk : Bool) (r : RkM R)
    (parts : List (R × Option (RkM R))) (dotruncate : Bool)
    (hr : r.Inv)
    (hparts : ∀ p ∈ parts, ∀ q, p.2 = some q →
      q.Inv ∧ q.rows.isSubset r.rows ∧ q.cols.isSubset r.cols) :
    (((usedList r parts).length = 0 ∨
        (¬ min r.rows.size r.cols.size ≤
            ((usedList r parts).map (fun p => p.2.rank)).sum ∧
          ¬ (1 < (usedList r parts).length ∧ dotruncate = true))) →
      MatEq (r.formattedAddParts ker ctl l2 uip recompMGS bestRk parts
        dotruncate).evalM (exactSumMat r parts)) ∧
    ((usedList r parts).length ≠ 0 →
      min r.rows.size r.cols.size ≤
        ((usedList r parts).map (fun p => p.2.rank)).sum →
      ∃ D, MatEq D (exactSumMat r parts) ∧
        r.formattedAddParts ker ctl l2 uip recompMGS bestRk parts dotruncate =
          ⟨r.rows, r.cols, ((ker.tsvd D ctl.recompressionEpsilon).1).map Prod.fst,
            ((ker.tsvd D ctl.recompressionEpsilon).1).map Prod.snd,
            (ker.tsvd D ctl.recompressionEpsilon).2⟩) ∧
    (¬ min r.rows.size r.cols.size ≤
        ((usedList r parts).map (fun p => p.2.rank)).sum →
      1 < (usedList r parts).length → dotruncate = true →
      ∃ (pre : RkM R) (pA pB : Nat), MatEq pre.evalM (exactSumMat r parts) ∧
        r.formattedAddParts ker ctl l2 uip recompMGS bestRk parts dotruncate =
          pre.truncate ker ctl l2 uip recompMGS ctl.recompressionEpsilon pA pB) := by
  have hpInv : ∀ p ∈ parts, ∀ q, p.2 = some q → q.Inv :=
    fun p hp q hq => (hparts p hp q hq).1
  have hempty : (usedList r parts).length = 0 →
      MatEq (r.formattedAddParts ker ctl l2 uip recompMGS bestRk parts
        dotruncate).evalM (exactSumMat r parts) := by
    intro h0
    rw [fap_empty ker ctl l2 uip recompMGS bestRk r parts dotruncate h0]
    rw [evalM_of_rank_zero (⟨r.rows, r.cols, none, none,
      (usedList r parts).foldl (fun acc p => min acc p.2.method) r.method⟩ : RkM R) rfl]
    have hrrank : r.rank = 0 := by
      by_contra hk
      rw [usedList_cons_of_rank r parts hk] at h0
      simp at h0
    have hfm : parts.filterMap (fun p =>
        match p.2 with
        | some q =>
          if q.rank = 0 ∨ q.rows.size = 0 ∨ q.cols.size = 0 ∨ p.1 = 0 then none
          else some (p.1, q)
        | none => none) = [] := by
      rw [usedList_of_rank_zero r parts hrrank] at h0
      exact List.length_eq_zero.mp h0
    refine ⟨rfl, rfl, ?_⟩
    intro i hi j hj
    show (0 : R) = exactSumEntry r parts i j
    unfold exactSumEntry
    rw [evalM_of_rank_zero r hrrank]
    have hsum0 : (parts.map (fun p =>
        match p.2 with
        | some q => p.1 * padEntry r.rows r.cols q i j
        | none => 0)).sum = 0 := by
      apply List.sum_eq_zero
      intro y hy
      rw [List.mem_map] at hy
      obtain ⟨x, hx, hxy⟩ := hy
      subst hxy
      cases h2 : x.2 with
      | none => rfl
      | some q =>
        dsimp only
        have hnone := List.filterMap_eq_nil.mp hfm x hx
        rw [h2] at hnone
        dsimp only at hnone
        by_cases hc : q.rank = 0 ∨ q.rows.size = 0 ∨ q.cols.size = 0 ∨ x.1 = 0
        · rcases hc with h | h | h | h
          · rw [padEntry_rank_zero r.rows r.cols q h, mul_zero]
          · rw [padEntry_rows_zero r.rows r.cols q h, mul_zero]
          · rw [padEntry_cols_zero r.rows r.cols q h, mul_zero]
          · rw [h, zero_mul]
        · rw [if_neg hc] at hnone
          simp at hnone
    rw [hsum0]
    simp [Mat.zeros]
  refine ⟨?_, ?_, ?_⟩
  · intro h
    rcases h with h0 | ⟨hsc, hgd⟩
    · exact hempty h0
    · by_cases h0 : (usedList r parts).length = 0
      · exact hempty h0
      · rw [fap_concat ker ctl l2 uip recompMGS bestRk r parts dotruncate h0 hsc]
        dsimp only
        rw [if_neg hgd]
        have hperm : (if bestRk then bestRkReorder (usedList r parts)
            else (usedList r parts,
              if ((usedList r parts).headD (dfltPart R)).2.aOrtho then
                ((usedList r parts).headD (dfltPart R)).2.rank else 0,
              if ((usedList r parts).headD (dfltPart R)).2.bOrtho then
                ((usedList r parts).headD (dfltPart R)).2.rank else 0)).1.Perm
            (usedList r parts) := by
          split
          · exact bestRkReorder_perm _
          · exact List.Perm.refl _
        exact concat_value r parts hr hpInv _ hperm h0 _
  · intro h0 h1
    rw [fap_shortcut ker ctl l2 uip recompMGS bestRk r parts dotruncate h0 h1]
    simp only [RkM.formattedAddPartsDense]
    refine ⟨_, ?_, rfl⟩
    refine ⟨?_, ?_, ?_⟩
    · rw [(axpy_fold_dims r _ r.evalM).1, evalM_rows]
      rfl
    · rw [(axpy_fold_dims r _ r.evalM).2, evalM_cols]
      rfl
    · intro i hi j hj
      rw [(axpy_fold_dims r _ r.evalM).1, evalM_rows] at hi
      rw [(axpy_fold_dims r _ r.evalM).2, evalM_cols] at hj
      rw [axpy_fold_entry r _ r.evalM i j]
      by_cases hk : r.rank ≠ 0
      · rw [if_pos hk, usedList_cons_of_rank r parts hk]
        simp only [List.drop_succ_cons, List.drop_zero, List.map_cons,
          List.sum_cons, zero_add]
        rw [dense_sum r _ i j, filtered_sum r.rows r.cols parts i j]
        rfl
      · rw [if_neg hk, usedList_of_rank_zero r parts (not_not.mp hk)]
        rw [dense_sum r _ i j, filtered_sum r.rows r.cols parts i j]
        rfl
  · intro hsc hlen hdo
    rw [fap_concat ker ctl l2 uip recompMGS bestRk r parts dotruncate
      (by omega) hsc]
    dsimp only
    rw [if_pos ⟨hlen, hdo⟩]
    refine ⟨_, _, _, ?_, rfl⟩
    have hperm : (if bestRk then bestRkReorder (usedList r parts)
        else (usedList r parts,
          if ((usedList r parts).headD (dfltPart R)).2.aOrtho then
            ((usedList r parts).headD (dfltPart R)).2.rank else 0,
          if ((usedList r parts).headD (dfltPart R)).2.bOrtho then
            ((usedList r parts).headD (dfltPart R)).2.rank else 0)).1.Perm
        (usedList r parts) := by
      split
      · exact bestRkReorder_perm _
      · exact List.Perm.refl _
    exact concat_value r parts hr hpInv _ hperm (by omega) _

/-- Claim C1 witness: the `formattedAddParts` theorem applied to a concrete
3×3 rank-1 target with one concrete rank-1 part on a sub-block. -/
theorem C1_formattedAddParts_spec_witness :
    wC1r.Inv ∧
    (∀ p ∈ wC1parts, ∀ q, p.2 = some q →
      q.Inv ∧ q.rows.isSubset wC1r.rows ∧ q.cols.isSubset wC1r.cols) ∧
    ((((usedList wC1r wC1parts).length = 0 ∨
        (¬ min wC1r.rows.size wC1r.cols.size ≤
            ((usedList wC1r wC1parts).map (fun p => p.2.rank)).sum ∧
          ¬ (1 < (usedList wC1r wC1parts).length ∧ false = true))) →
      MatEq (wC1r.formattedAddParts wKer ⟨0, 1⟩ false false false false wC1parts
        false).evalM (exactSumMat wC1r wC1parts)) ∧
    ((usedList wC1r wC1parts).length ≠ 0 →
      min wC1r.rows.size wC1r.cols.size ≤
        ((usedList wC1r wC1parts).map (fun p => p.2.rank)).sum →
      ∃ D, MatEq D (exactSumMat wC1r wC1parts) ∧
        wC1r.formattedAddParts wKer ⟨0, 1⟩ false false false false wC1parts false =
          ⟨wC1r.rows, wC1r.cols,
            ((wKer.tsvd D (RkApproximationControl.mk 0 1).recompressionEpsilon).1).map
              Prod.fst,
            ((wKer.tsvd D (RkApproximationControl.mk 0 1).recompressionEpsilon).1).map
              Prod.snd,
            (wKer.tsvd D (RkApproximationControl.mk 0 1).recompressionEpsilon).2⟩) ∧
    (¬ min wC1r.rows.size wC1r.cols.size ≤
        ((usedList wC1r wC1parts).map (fun p => p.2.rank)).sum →
      1 < (usedList wC1r wC1parts).length → false = true →
      ∃ (pre : RkM ℚ) (pA pB : Nat), MatEq pre.evalM (exactSumMat wC1r wC1parts) ∧
        wC1r.formattedAddParts wKer ⟨0, 1⟩ false false false false wC1parts false =
          pre.truncate wKer ⟨0, 1⟩ false false false
            (RkApproximationControl.mk 0 1).recompressionEpsilon pA pB)) := by
  have h1 : wC1r.Inv := Or.inr ⟨_, _, rfl, rfl, rfl, by decide, rfl, rfl⟩
  have h2 : ∀ p ∈ wC1parts, ∀ q, p.2 = some q →
      q.Inv ∧ q.rows.isSubset wC1r.rows ∧ q.cols.isSubset wC1r.cols := by
    intro p hp q hq
    have hpe : p = ((1 : ℚ), some wC1q) := by simpa [wC1parts] using hp
    subst hpe
    obtain rfl := Option.some.inj hq
    exact ⟨Or.inr ⟨_, _, rfl, rfl, rfl, by decide, rfl, rfl⟩,
      ⟨by decide, by decide⟩, ⟨by decide, by decide⟩⟩
  exact ⟨h1, h2, C1_formattedAddParts_spec wKer ⟨0, 1⟩ false false false false
    wC1r wC1parts false h1 h2⟩

/-- Claim C1 counterexample to the original wording: with `dotruncate = false`
and exactly one participating term the original claim demands the exact sum,
but when the total rank reaches `min(m, n)` the dense shortcut recompresses
through `truncatedSvd` at `ε_rec` anyway; with a well-formed kernel returning
the empty Rk (within tolerance at `ε_rec = 1`) the result (zero) differs from
the exact sum (one). -/
theorem C1_formattedAddParts_counterexample :
    KernelsWF wKer ∧
    (usedList cC1r cC1parts).length = 1 ∧
    ¬ MatEq ((cC1r.formattedAddParts wKer ⟨0, 1⟩ false false false false cC1parts
        false).evalM) (exactSumMat cC1r cC1parts) := by
  refine ⟨⟨fun Qf X => ⟨rfl, rfl⟩, fun M e p h => by simp [wKer] at h,
    fun A e p => rfl⟩, rfl, ?_⟩
  have hres : cC1r.formattedAddParts wKer ⟨0, 1⟩ false false false false cC1parts
      false = ⟨cC1r.rows, cC1r.cols, none, none, 0⟩ := rfl
  intro h
  rw [hres, evalM_of_rank_zero (⟨cC1r.rows, cC1r.cols, none, none, 0⟩ : RkM ℚ) rfl]
    at h
  have hent := h.2.2 0 (by decide) 0 (by decide)
  have hzero : (Mat.zeros (⟨cC1r.rows, cC1r.cols, none, none, 0⟩ :
      RkM ℚ).rows.size (⟨cC1r.rows, cC1r.cols, none, none, 0⟩ :
      RkM ℚ).cols.size : Mat ℚ).entry 0 0 = 0 := rfl
  have hone : (exactSumMat cC1r cC1parts).entry 0 0 = 1 := by
    show exactSumEntry cC1r cC1parts 0 0 = 1
    unfold exactSumEntry
    rw [evalM_of_rank_zero cC1r rfl]
    show (0 : ℚ) + (1 * padEntry cC1r.rows cC1r.cols cC1q 0 0 + 0) = 1
    have hpad : padEntry cC1r.rows cC1r.cols cC1q 0 0 = cC1q.evalM.entry 0 0 := by
      simp only [padEntry]
      rw [if_pos (by decide)]
      rfl
    have hq : cC1q.evalM.entry 0 0 = 1 := by
      rw [evalM_entry cC1q _ _ rfl rfl (by decide) 0 0]
      rw [Finset.sum_range_one]
      norm_num [cC1q]
    rw [hpad, hq]
    norm_num
  rw [hzero, hone] at hent
  exact absurd hent (by norm_num)

lemma clear_inv [CommRing R] (r : RkM R) : r.clear.Inv := Or.inl ⟨rfl, rfl⟩

lemma Mat.setOrtho_rows (A : Mat R) (b : Bool) : (A.setOrtho b).rows = A.rows := rfl

lemma Mat.setOrtho_cols (A : Mat R) (b : Bool) : (A.setOrtho b).cols = A.cols := rfl

lemma tsvd_record_inv [CommRing R] (ker : Kernels R) (hker : KernelsWF ker)
    (rows cols : IndexSet) (M : Mat R) (e : ℚ)
    (hMr : M.rows = rows.size) (hMc : M.cols = cols.size) :
    RkM.Inv (⟨rows, cols, ((ker.tsvd M e).1).map Prod.fst,
      ((ker.tsvd M e).1).map Prod.snd, (ker.tsvd M e).2⟩ : RkM R) := by
  cases htsv : (ker.tsvd M e).1 with
  | none =>
    refine Or.inl ⟨?_, ?_⟩ <;> simp [htsv]
  | some pr =>
    obtain ⟨hcols, h1, hrw, hcl⟩ := hker.2.1 M e pr htsv
    exact Or.inr ⟨pr.1, pr.2, by simp [htsv], by simp [htsv], hcols, h1,
      hrw.trans hMr, hcl.trans hMc⟩

lemma mgsTruncate_inv [CommRing R] [StarRing R] [Algebra ℚ R] (ker : Kernels R)
    (ctl : RkApproximationControl) (l2 : Bool) (r : RkM R) (epsilon : ℚ)
    (ipA ipB : Nat) (hker : KernelsWF ker) (hr : r.Inv) :
    (r.mgsTruncate ker ctl l2 epsilon ipA ipB).Inv := by
  unfold RkM.mgsTruncate
  by_cases hk : r.rank = 0
  · rw [if_pos hk]
    exact hr
  · rw [if_neg hk]
    rcases hr with ⟨ha, hb⟩ | ⟨A, B, ha, hb, hab, h1, hra, hrb⟩
    · exact absurd (by simp [RkM.rank, ha]) hk
    · rw [ha, hb]
      dsimp only
      split_ifs with h2 h3 h4
      · exact clear_inv r
      · exact clear_inv r
      · exact clear_inv r
      · refine Or.inr ⟨_, _, rfl, rfl, rfl, Nat.one_le_iff_ne_zero.mpr h4, ?_, ?_⟩
        · show (ker.mgs A epsilon ipA).1.rows = r.rows.size
          rw [hker.2.2 A epsilon ipA]
          exact hra
        · show (ker.mgs B epsilon ipB).1.rows = r.cols.size
          rw [hker.2.2 B epsilon ipB]
          exact hrb

lemma Mat.copyAt_rows (dst src : Mat R) (ro co : Nat) :
    (dst.copyAt src ro co).rows = dst.rows := rfl

lemma Mat.copyAt_cols (dst src : Mat R) (ro co : Nat) :
    (dst.copyAt src ro co).cols = dst.cols := rfl

lemma truncate_inv [CommRing R] [StarRing R] [Algebra ℚ R] (ker : Kernels R)
    (ctl : RkApproximationControl) (l2 uip recompMGS : Bool) (r : RkM R)
    (epsilon : ℚ) (ipA ipB : Nat) (hker : KernelsWF ker) (hr : r.Inv) :
    (r.truncate ker ctl l2 uip recompMGS epsilon ipA ipB).Inv := by
  unfold RkM.truncate
  dsimp only
  by_cases hk : r.rank = 0
  · rw [if_pos hk]
    exact hr
  · rw [if_neg hk]
    by_cases hfb : min r.rows.size r.cols.size < r.rank
    · rw [if_pos hfb]
      exact tsvd_record_inv ker hker r.rows r.cols r.evalM epsilon
        (evalM_rows r) (evalM_cols r)
    · rw [if_neg hfb]
      by_cases hm : recompMGS = true
      · rw [if_pos hm]
        exact mgsTruncate_inv ker ctl l2 r epsilon _ _ hker hr
      · rw [if_neg hm]
        rcases hr with ⟨ha, hb⟩ | ⟨A, B, ha, hb, hab, h1, hra, hrb⟩
        · exact absurd (by simp [RkM.rank, ha]) hk
        · rw [ha, hb]
          dsimp only
          have hpr : ∀ Qf X : Mat R, (ker.productQ Qf X).rows = X.rows :=
            fun Qf X => (hker.1 Qf X).1
          have hpc : ∀ Qf X : Mat R, (ker.productQ Qf X).cols = X.cols :=
            fun Qf X => (hker.1 Qf X).2
          generalize (if uip = true then ipA else 0) = ipA2
          generalize (if uip = true then ipB else 0) = ipB2
          split_ifs with h4 h5 h6 h7
          · exact clear_inv r
          · refine Or.inr ⟨_, _, rfl, rfl, ?_, ?_, ?_, ?_⟩
            · simp only [Mat.setOrtho_cols, Mat.gemm_cols, hpc, Mat.copyAt_cols,
                Mat.zeros_cols]
            · simp only [Mat.setOrtho_cols, Mat.gemm_cols, hpc, Mat.copyAt_cols,
                Mat.zeros_cols]
              exact Nat.one_le_iff_ne_zero.mpr h4
            · simp only [Mat.setOrtho_rows, Mat.gemm_rows, hpr, Mat.copyAt_rows,
                Mat.zeros_rows]
            · simp only [Mat.setOrtho_rows, Mat.gemm_rows, hpr, Mat.copyAt_rows,
                Mat.zeros_rows]
          · refine Or.inr ⟨_, _, rfl, rfl, ?_, ?_, ?_, ?_⟩
            · simp only [Mat.setOrtho_cols, Mat.gemm_cols, hpc, Mat.copyAt_cols,
                Mat.zeros_cols]
            · simp only [Mat.setOrtho_cols, Mat.gemm_cols, hpc, Mat.copyAt_cols,
                Mat.zeros_cols]
              exact Nat.one_le_iff_ne_zero.mpr h4
            · simp only [Mat.setOrtho_rows, Mat.gemm_rows, hpr, Mat.copyAt_rows,
                Mat.zeros_rows]
            · simp only [Mat.setOrtho_rows, Mat.gemm_rows, hpr, Mat.copyAt_rows,
                Mat.zeros_rows]
          · refine Or.inr ⟨_, _, rfl, rfl, ?_, ?_, ?_, ?_⟩
            · simp only [Mat.setOrtho_cols, Mat.gemm_cols, hpc, Mat.copyAt_cols,
                Mat.zeros_cols]
            · simp only [Mat.setOrtho_cols, Mat.gemm_cols, hpc, Mat.copyAt_cols,
                Mat.zeros_cols]
              exact Nat.one_le_iff_ne_zero.mpr h4
            · simp only [Mat.setOrtho_rows, Mat.gemm_rows, hpr, Mat.copyAt_rows,
                Mat.zeros_rows]
            · simp only [Mat.setOrtho_rows, Mat.gemm_rows, hpr, Mat.copyAt_rows,
                Mat.zeros_rows]
          · refine Or.inr ⟨_, _, rfl, rfl, ?_, ?_, ?_, ?_⟩
            · simp only [Mat.setOrtho_cols, Mat.gemm_cols, hpc, Mat.copyAt_cols,
                Mat.zeros_cols]
            · simp only [Mat.setOrtho_cols, Mat.gemm_cols, hpc, Mat.copyAt_cols,
                Mat.zeros_cols]
              exact Nat.one_le_iff_ne_zero.mpr h4
            · simp only [Mat.setOrtho_rows, Mat.gemm_rows, hpr, Mat.copyAt_rows,
                Mat.zeros_rows]
            · simp only [Mat.setOrtho_rows, Mat.gemm_rows, hpr, Mat.copyAt_rows,
                Mat.zeros_rows]

lemma dense_inv [CommRing R] [StarRing R] [Algebra ℚ R] (ker : Kernels R)
    (ctl : RkApproximationControl) (r : RkM R) (fp : List (R × Option (FullM R)))
    (hker : KernelsWF ker) :
    (r.formattedAddPartsDense ker ctl fp).Inv := by
  simp only [RkM.formattedAddPartsDense]
  exact tsvd_record_inv ker hker r.rows r.cols _ ctl.recompressionEpsilon
    ((axpy_fold_dims r fp r.evalM).1.trans (evalM_rows r))
    ((axpy_fold_dims r fp r.evalM).2.trans (evalM_cols r))

lemma usedList_tot_pos [CommRing R] [DecidableEq R] (r : RkM R)
    (parts : List (R × Option (RkM R))) (hr : r.Inv)
    (hparts : ∀ p ∈ parts, ∀ q, p.2 = some q → q.Inv)
    (hne : (usedList r parts).length ≠ 0) :
    ((usedList r parts).map (fun p => p.2.rank)).sum ≠ 0 := by
  cases hu : usedList r parts with
  | nil =>
    rw [hu] at hne
    simp at hne
  | cons u us =>
    have hOKu : PartOK u := usedList_ok r parts hr hparts u
      (by rw [hu]; exact List.mem_cons_self u us)
    obtain ⟨-, -, -, -, -, -, -, -, hKu⟩ := hOKu
    rw [List.map_cons, List.sum_cons]
    intro hz
    exact hKu (by omega)

lemma fap_inv [CommRing R] [StarRing R] [Algebra ℚ R] [DecidableEq R]
    (ker : Kernels R) (ctl : RkApproximationControl) (l2 uip recompMGS bestRk : Bool)
    (r : RkM R) (parts : List (R × Option (RkM R))) (dotruncate : Bool)
    (hker : KernelsWF ker) (hr : r.Inv)
    (hparts : ∀ p ∈ parts, ∀ q, p.2 = some q → q.Inv) :
    (r.formattedAddParts ker ctl l2 uip recompMGS bestRk parts dotruncate).Inv := by
  by_cases h0 : (usedList r parts).length = 0
  · rw [fap_empty ker ctl l2 uip recompMGS bestRk r parts dotruncate h0]
    exact Or.inl ⟨rfl, rfl⟩
  · by_cases h1 : min r.rows.size r.cols.size ≤
        ((usedList r parts).map (fun p => p.2.rank)).sum
    · rw [fap_shortcut ker ctl l2 uip recompMGS bestRk r parts dotruncate h0 h1]
      exact dense_inv ker ctl r _ hker
    · rw [fap_concat ker ctl l2 uip recompMGS bestRk r parts dotruncate h0 h1]
      dsimp only
      simp only [concatPanels]
      have hdims := concat_fold_dims r.rows r.cols
        ((if bestRk then bestRkReorder (usedList r parts)
          else (usedList r parts,
            if ((usedList r parts).headD (dfltPart R)).2.aOrtho then
              ((usedList r parts).headD (dfltPart R)).2.rank else 0,
            if ((usedList r parts).headD (dfltPart R)).2.bOrtho then
              ((usedList r parts).headD (dfltPart R)).2.rank else 0)).1)
        (Mat.zeros r.rows.size (((usedList r parts).map (fun p => p.2.rank)).sum),
         Mat.zeros r.cols.size (((usedList r parts).map (fun p => p.2.rank)).sum), 0)
      have htpos := usedList_tot_pos r parts hr hparts h0
      split
      · apply truncate_inv ker ctl l2 uip recompMGS _ ctl.recompressionEpsilon _ _ hker
        refine Or.inr ⟨_, _, rfl, rfl, hdims.2.1.trans hdims.2.2.2.symm, ?_,
          hdims.1, hdims.2.2.1⟩
        rw [hdims.2.1]
        exact Nat.one_le_iff_ne_zero.mpr htpos
      · refine Or.inr ⟨_, _, rfl, rfl, hdims.2.1.trans hdims.2.2.2.symm, ?_,
          hdims.1, hdims.2.2.1⟩
        rw [hdims.2.1]
        exact Nat.one_le_iff_ne_zero.mpr htpos

/-- Claim C7: every operation on an Rk block preserves the structural
invariant — `rank() = 0` iff both panels are absent, otherwise both are
present with a common column count `k ≥ 1` and row counts matching the index
sets; in particular `clear`, `transpose`, `swap` (on blocks over the same
index sets, as the source asserts), `truncate`, `mGSTruncate` and
`formattedAddParts` (given shape-correct kernels) all maintain it. -/
theorem C7_invariant_spec [CommRing R] [StarRing R] [Algebra ℚ R] [DecidableEq R]
    (ker : Kernels R) (ctl : RkApproximationControl) (l2 uip recompMGS bestRk : Bool)
    (r o : RkM R) (epsilon : ℚ) (pA pB : Nat)
    (parts : List (R × Option (RkM R))) (dotruncate : Bool)
    (hker : KernelsWF ker) (hr : r.Inv) (ho : o.Inv)
    (hrows : r.rows = o.rows) (hcols : r.cols = o.cols)
    (hparts : ∀ p ∈ parts, ∀ q, p.2 = some q → q.Inv) :
    (r.rank = 0 ↔ (r.a = none ∧ r.b = none)) ∧
    r.clear.Inv ∧
    r.transposeRk.Inv ∧
    (r.swapRk o).1.Inv ∧
    (r.swapRk o).2.Inv ∧
    (r.truncate ker ctl l2 uip recompMGS epsilon pA pB).Inv ∧
    (r.mgsTruncate ker ctl l2 epsilon pA pB).Inv ∧
    (r.formattedAddParts ker ctl l2 uip recompMGS bestRk parts dotruncate).Inv := by
  refine ⟨?_, clear_inv r, ?_, ?_, ?_,
    truncate_inv ker ctl l2 uip recompMGS r epsilon pA pB hker hr,
    mgsTruncate_inv ker ctl l2 r epsilon pA pB hker hr,
    fap_inv ker ctl l2 uip recompMGS bestRk r parts dotruncate hker hr hparts⟩
  · constructor
    · intro hk
      rcases hr with ⟨ha, hb⟩ | ⟨A, B, ha, hb, -, h1, -, -⟩
      · exact ⟨ha, hb⟩
      · have hAc : r.rank = A.cols := by simp [RkM.rank, ha]
        omega
    · rintro ⟨ha, -⟩
      simp [RkM.rank, ha]
  · rcases hr with ⟨ha, hb⟩ | ⟨A, B, ha, hb, hab, h1, hra, hrb⟩
    · exact Or.inl ⟨hb, ha⟩
    · exact Or.inr ⟨B, A, hb, ha, hab.symm, by omega, hrb, hra⟩
  · rcases ho with ⟨ha, hb⟩ | ⟨A, B, ha, hb, hab, h1, hra, hrb⟩
    · exact Or.inl ⟨ha, hb⟩
    · refine Or.inr ⟨A, B, ha, hb, hab, h1, ?_, ?_⟩
      · show A.rows = r.rows.size
        rw [hrows]
        exact hra
      · show B.rows = r.cols.size
        rw [hcols]
        exact hrb
  · rcases hr with ⟨ha, hb⟩ | ⟨A, B, ha, hb, hab, h1, hra, hrb⟩
    · exact Or.inl ⟨ha, hb⟩
    · refine Or.inr ⟨A, B, ha, hb, hab, h1, ?_, ?_⟩
      · show A.rows = o.rows.size
        rw [← hrows]
        exact hra
      · show B.rows = o.cols.size
        rw [← hcols]
        exact hrb

/-- Claim C7 witness: the invariant theorem applied to concrete rational Rk
blocks over matching index sets, with the concrete well-formed kernel. -/
theorem C7_invariant_spec_witness :
    KernelsWF wKer ∧ wRk2.Inv ∧ wRk.Inv ∧ wRk2.rows = wRk.rows ∧
    wRk2.cols = wRk.cols ∧
    (∀ p ∈ ([] : List (ℚ × Option (RkM ℚ))), ∀ q, p.2 = some q → q.Inv) ∧
    ((wRk2.rank = 0 ↔ (wRk2.a = none ∧ wRk2.b = none)) ∧
     wRk2.clear.Inv ∧
     wRk2.transposeRk.Inv ∧
     (wRk2.swapRk wRk).1.Inv ∧
     (wRk2.swapRk wRk).2.Inv ∧
     (wRk2.truncate wKer ⟨0, 1⟩ false false false 1 0 0).Inv ∧
     (wRk2.mgsTruncate wKer ⟨0, 1⟩ false 1 0 0).Inv ∧
     (wRk2.formattedAddParts wKer ⟨0, 1⟩ false false false false [] false).Inv) := by
  have hker : KernelsWF wKer :=
    ⟨fun Qf X => ⟨rfl, rfl⟩, fun M e p h => by simp [wKer] at h, fun A e p => rfl⟩
  have h2 : wRk2.Inv := Or.inr ⟨_, _, rfl, rfl, rfl, by decide, rfl, rfl⟩
  have h3 : wRk.Inv := Or.inr ⟨_, _, rfl, rfl, rfl, by decide, rfl, rfl⟩
  have hp : ∀ p ∈ ([] : List (ℚ × Option (RkM ℚ))), ∀ q, p.2 = some q → q.Inv := by
    intro p hp
    simp at hp
  exact ⟨hker, h2, h3, rfl, rfl, hp,
    C7_invariant_spec wKer ⟨0, 1⟩ false false false false wRk2 wRk 1 0 0 [] false
      hker h2 h3 rfl rfl hp⟩

end HmatOss
